/-
  Verification of damp83/bancoproblemas (two Vercel edge handlers):
  * api/generate-problem.js — prompt building, extraction of JSON from the
    model reply, and normalization of problem records;
  * api/problems.js — persistence of the record collection to a GitHub file
    with sha-based optimistic concurrency.

  The JavaScript is shallowly embedded: JS values become the inductive type
  `JSVal` (numbers are `JSNum`, i.e. NaN or an exact rational — every JS
  double is a rational, so this is a faithful carrier; the few places where
  double rounding could matter are noted), objects become ordered field
  lists (JS objects preserve insertion order), and host primitives
  (`Date.now`, `Math.random`-based id generation, `fetch` outcomes,
  `req.json()` outcomes) become explicit parameters.
-/
import Mathlib

set_option maxRecDepth 10000

namespace Banco

/-- JS numbers: NaN or an exact value. Every finite JS double is a rational,
so `ℚ` is a faithful carrier for the values these handlers manipulate. -/
inductive JSNum where
  | nan : JSNum
  | num : ℚ → JSNum
deriving DecidableEq, Repr

/-- JS values as produced by `JSON.parse` plus `undefined`.
Objects are ordered association lists (JS preserves insertion order). -/
inductive JSVal where
  | vUndef : JSVal
  | vNull : JSVal
  | vBool : Bool → JSVal
  | vNum : JSNum → JSVal
  | vStr : String → JSVal
  | vArr : List JSVal → JSVal
  | vObj : List (String × JSVal) → JSVal
deriving Repr

open JSVal JSNum

mutual

/-- Structural equality test on JS values. -/
def beqV : JSVal → JSVal → Bool
  | vUndef, vUndef => true
  | vNull, vNull => true
  | vBool a, vBool b => a = b
  | vNum a, vNum b => a = b
  | vStr a, vStr b => a = b
  | vArr xs, vArr ys => beqL xs ys
  | vObj fs, vObj gs => beqF fs gs
  | _, _ => false

def beqL : List JSVal → List JSVal → Bool
  | [], [] => true
  | x :: xs, y :: ys => beqV x y && beqL xs ys
  | _, _ => false

def beqF : List (String × JSVal) → List (String × JSVal) → Bool
  | [], [] => true
  | (k, v) :: fs, (k', v') :: gs => k = k' && beqV v v' && beqF fs gs
  | _, _ => false

end

mutual

theorem beqV_refl : (v : JSVal) → beqV v v = true
  | vUndef => rfl
  | vNull => rfl
  | vBool a => by simp [beqV]
  | vNum a => by simp [beqV]
  | vStr a => by simp [beqV]
  | vArr xs => by simp [beqV, beqL_refl xs]
  | vObj fs => by simp [beqV, beqF_refl fs]

theorem beqL_refl : (xs : List JSVal) → beqL xs xs = true
  | [] => rfl
  | x :: xs => by simp [beqL, beqV_refl x, beqL_refl xs]

theorem beqF_refl : (fs : List (String × JSVal)) → beqF fs fs = true
  | [] => rfl
  | (k, v) :: fs => by simp [beqF, beqV_refl v, beqF_refl fs]

end

mutual

theorem eq_of_beqV : (v w : JSVal) → beqV v w = true → v = w
  | vUndef, w, h => by cases w <;> simp_all [beqV]
  | vNull, w, h => by cases w <;> simp_all [beqV]
  | vBool a, w, h => by cases w <;> simp_all [beqV]
  | vNum a, w, h => by cases w <;> simp_all [beqV]
  | vStr a, w, h => by cases w <;> simp_all [beqV]
  | vArr xs, w, h => by
      cases w with
      | vArr ys => exact congrArg vArr (eq_of_beqL xs ys (by simpa [beqV] using h))
      | vUndef => simp [beqV] at h
      | vNull => simp [beqV] at h
      | vBool b => simp [beqV] at h
      | vNum n => simp [beqV] at h
      | vStr s => simp [beqV] at h
      | vObj gs => simp [beqV] at h
  | vObj fs, w, h => by
      cases w with
      | vObj gs => exact congrArg vObj (eq_of_beqF fs gs (by simpa [beqV] using h))
      | vUndef => simp [beqV] at h
      | vNull => simp [beqV] at h
      | vBool b => simp [beqV] at h
      | vNum n => simp [beqV] at h
      | vStr s => simp [beqV] at h
      | vArr ys => simp [beqV] at h

theorem eq_of_beqL : (xs ys : List JSVal) → beqL xs ys = true → xs = ys
  | [], [], _ => rfl
  | x :: xs, y :: ys, h => by
      have h1 : beqV x y = true := by
        have := h; simp [beqL, Bool.and_eq_true] at this; exact this.1
      have h2 : beqL xs ys = true := by
        have := h; simp [beqL, Bool.and_eq_true] at this; exact this.2
      rw [eq_of_beqV x y h1, eq_of_beqL xs ys h2]
  | [], _ :: _, h => by simp [beqL] at h
  | _ :: _, [], h => by simp [beqL] at h

theorem eq_of_beqF : (fs gs : List (String × JSVal)) → beqF fs gs = true → fs = gs
  | [], [], _ => rfl
  | (k, v) :: fs, (k', v') :: gs, h => by
      have h0 : k = k' ∧ beqV v v' = true ∧ beqF fs gs = true := by
        have := h; simp [beqF, Bool.and_eq_true, decide_eq_true_eq] at this
        exact ⟨this.1.1, this.1.2, this.2⟩
      rw [h0.1, eq_of_beqV v v' h0.2.1, eq_of_beqF fs gs h0.2.2]
  | [], _ :: _, h => by simp [beqF] at h
  | _ :: _, [], h => by simp [beqF] at h

end

instance : DecidableEq JSVal := fun v w =>
  decidable_of_iff (beqV v w = true)
    ⟨eq_of_beqV v w, fun h => h ▸ beqV_refl v⟩

/-- Ordered field list of a JS object. -/
abbrev Obj := List (String × JSVal)

/-- First-occurrence lookup in an object's field list (JS objects have
no duplicate keys, so first-occurrence semantics is faithful). -/
def objGet (o : Obj) (k : String) : Option JSVal :=
  match o with
  | [] => none
  | (k', v) :: rest => if k' = k then some v else objGet rest k

/-- Property read `o[k]`, yielding `undefined` when the key is absent. -/
def objGetD (o : Obj) (k : String) : JSVal :=
  (objGet o k).getD vUndef

/-- Property write `o[k] = v`: updates the existing key in place (JS keeps
the original insertion position) or appends a fresh key at the end. -/
def objSet (o : Obj) (k : String) (v : JSVal) : Obj :=
  match o with
  | [] => [(k, v)]
  | (k', v') :: rest => if k' = k then (k, v) :: rest else (k', v') :: objSet rest k v

theorem objGet_objSet_self (o : Obj) (k : String) (v : JSVal) :
    objGet (objSet o k v) k = some v := by
  induction o with
  | nil => simp [objSet, objGet]
  | cons hd tl ih =>
    by_cases h : hd.1 = k <;> simp [objSet, objGet, h, ih]

theorem objGet_objSet_ne (o : Obj) (k k' : String) (v : JSVal) (h : k ≠ k') :
    objGet (objSet o k v) k' = objGet o k' := by
  induction o with
  | nil => simp [objSet, objGet, h]
  | cons hd tl ih =>
    by_cases h1 : hd.1 = k <;> by_cases h2 : hd.1 = k' <;>
      simp_all [objSet, objGet]

/-- Writing back a value that is already stored leaves the object unchanged. -/
theorem objSet_of_objGet_eq (o : Obj) (k : String) (v : JSVal)
    (h : objGet o k = some v) : objSet o k v = o := by
  induction o with
  | nil => simp [objGet] at h
  | cons hd tl ih =>
    obtain ⟨k0, v0⟩ := hd
    by_cases h1 : k0 = k
    · simp [objGet, h1] at h
      simp [objSet, h1, h]
    · simp [objGet, h1] at h
      simp [objSet, h1, ih h]

/-! ### JS primitive semantics used by the handlers -/

/-- JS truthiness. -/
def truthy : JSVal → Bool
  | vUndef => false
  | vNull => false
  | vBool b => b
  | vNum nan => false
  | vNum (num q) => q ≠ 0
  | vStr s => s ≠ ""
  | vArr _ => true
  | vObj _ => true

/-- `a || b`. -/
def jsOrV (a b : JSVal) : JSVal := if truthy a then a else b

/-- `a ?? b`. -/
def nullishOr (a b : JSVal) : JSVal :=
  match a with
  | vUndef => b
  | vNull => b
  | v => v

/-- Least `k ≤ 40` with `d ∣ 10^k` (exists for every denominator of a JS
double, which is a power of two). -/
def pow10Exp (d : Nat) : Option Nat :=
  (List.range 41).find? (fun k => decide (d ∣ 10 ^ k))

/-- Decimal digits accumulator (fuel-based so that it reduces in the
kernel; the fuel `n + 1` always suffices). -/
def natToCharsAux : Nat → Nat → List Char → List Char
  | 0, _, acc => acc
  | fuel + 1, n, acc =>
    if n < 10 then Char.ofNat (48 + n) :: acc
    else natToCharsAux fuel (n / 10) (Char.ofNat (48 + n % 10) :: acc)

/-- Decimal digits of `n`, most significant first. -/
def natToChars (n : Nat) : List Char := natToCharsAux (n + 1) n []

def natToString (n : Nat) : String := String.mk (natToChars n)

/-- `Number.prototype.toString` for the values reachable here: `NaN`,
and finite values with a terminating decimal expansion (every JS double
that these handlers print is in this class; the scientific-notation regime
for magnitudes outside `[1e-6, 1e21)` is not modelled). -/
def numToString : JSNum → String
  | nan => "NaN"
  | num q =>
    match pow10Exp q.den with
    | some k =>
      let m := q.num.natAbs * (10 ^ k / q.den)
      let sign := if q.num < 0 then "-" else ""
      if k = 0 then sign ++ natToString m
      else
        let fr := natToString (m % 10 ^ k)
        let frPad := String.mk (List.replicate (k - fr.length) '0') ++ fr
        sign ++ natToString (m / 10 ^ k) ++ "." ++ frPad
    | none => natToString q.den  -- unreachable for double-valued rationals

mutual

/-- JS `String(v)` / `.toString()` (ASCII behaviour; `toUpperCase` and
friends are modelled for ASCII). Arrays print as their elements joined by
commas with `null`/`undefined` elements printing as empty. -/
def jsToString : JSVal → String
  | vUndef => "undefined"
  | vNull => "null"
  | vBool b => if b then "true" else "false"
  | vNum n => numToString n
  | vStr s => s
  | vArr xs => arrJoin xs
  | vObj _ => "[object Object]"

def arrJoin : List JSVal → String
  | [] => ""
  | x :: xs =>
    (match x with
     | vUndef => ""
     | vNull => ""
     | v => jsToString v) ++ (if xs.isEmpty then "" else ",") ++ arrJoin xs

end

/-- JS whitespace (ASCII fragment). -/
def isWS (c : Char) : Bool :=
  c = ' ' || c = '\t' || c = '\n' || c = '\r' || c.toNat = 11 || c.toNat = 12

def trimLeftList (cs : List Char) : List Char := cs.dropWhile isWS

/-- `String.prototype.trim`. -/
def jsTrimList (cs : List Char) : List Char :=
  ((trimLeftList cs).reverse.dropWhile isWS).reverse

def parseDigitsRun : List Char → Option (Nat × Nat × List Char)
  | [] => none
  | c :: cs =>
    if c.isDigit then
      match parseDigitsRun cs with
      | some (v, len, rest) => some ((c.toNat - 48) * 10 ^ len + v, len + 1, rest)
      | none => some (c.toNat - 48, 1, cs)
    else none

/-- String-to-number conversion (`Number(string)`): trimmed decimal
literals with optional sign, fraction and exponent; everything else is
`NaN`. (Hex literals and `Infinity` are not modelled; the theorems that
depend on string conversion never involve them.) -/
def jsStrToNum (s : String) : JSNum :=
  let cs := jsTrimList s.toList
  if cs = [] then num 0
  else
    let (sgn, cs) : ℚ × List Char :=
      match cs with
      | '-' :: rest => (-1, rest)
      | '+' :: rest => (1, rest)
      | _ => (1, cs)
    let mant : Option (ℚ × List Char) :=
      match parseDigitsRun cs with
      | some (iv, _, rest) =>
        match rest with
        | '.' :: rest2 =>
          match parseDigitsRun rest2 with
          | some (fv, flen, rest3) => some ((iv : ℚ) + (fv : ℚ) / 10 ^ flen, rest3)
          | none => some ((iv : ℚ), rest2)
        | _ => some ((iv : ℚ), rest)
      | none =>
        match cs with
        | '.' :: rest2 =>
          match parseDigitsRun rest2 with
          | some (fv, flen, rest3) => some ((fv : ℚ) / 10 ^ flen, rest3)
          | none => none
        | _ => none
    match mant with
    | none => nan
    | some (m, rest) =>
      match rest with
      | [] => num (sgn * m)
      | 'e' :: rest2 =>
        (match rest2 with
         | '-' :: rest3 =>
           match parseDigitsRun rest3 with
           | some (e, _, []) => num (sgn * m / 10 ^ e)
           | _ => nan
         | '+' :: rest3 =>
           match parseDigitsRun rest3 with
           | some (e, _, []) => num (sgn * m * 10 ^ e)
           | _ => nan
         | _ =>
           match parseDigitsRun rest2 with
           | some (e, _, []) => num (sgn * m * 10 ^ e)
           | _ => nan)
      | 'E' :: rest2 =>
        (match rest2 with
         | '-' :: rest3 =>
           match parseDigitsRun rest3 with
           | some (e, _, []) => num (sgn * m / 10 ^ e)
           | _ => nan
         | '+' :: rest3 =>
           match parseDigitsRun rest3 with
           | some (e, _, []) => num (sgn * m * 10 ^ e)
           | _ => nan
         | _ =>
           match parseDigitsRun rest2 with
           | some (e, _, []) => num (sgn * m * 10 ^ e)
           | _ => nan)
      | _ => nan

/-- JS `Number(v)` ("ToNumber"). -/
def jsToNumber : JSVal → JSNum
  | vUndef => nan
  | vNull => num 0
  | vBool b => num (if b then 1 else 0)
  | vNum n => n
  | vStr s => jsStrToNum s
  | vArr xs => jsStrToNum (jsToString (vArr xs))
  | vObj _ => nan

/-- ASCII `String.prototype.toUpperCase` (per-character `Char.toUpper`). -/
def toUpperStr (s : String) : String := String.mk (s.toList.map Char.toUpper)

theorem charOfNat_toNat (n : Nat) (h : n.isValidChar) : (Char.ofNat n).toNat = n := by
  rw [Char.ofNat, dif_pos h]; rfl

theorem toUpper_idem (c : Char) : Char.toUpper (Char.toUpper c) = Char.toUpper c := by
  unfold Char.toUpper
  by_cases h : c.toNat ≥ 97 ∧ c.toNat ≤ 122
  · rw [if_pos h]
    have hv : (c.toNat - 32).isValidChar := Or.inl (by omega)
    rw [charOfNat_toNat _ hv]
    rw [if_neg (by omega)]
  · rw [if_neg h, if_neg h]

theorem toUpperStr_idem (s : String) : toUpperStr (toUpperStr s) = toUpperStr s := by
  simp only [toUpperStr, String.toList, String.mk, List.map_map]
  congr 1
  exact List.map_congr_left (fun c _ => toUpper_idem c)

/-- `Math.min` (NaN-propagating). -/
def jsMin : JSNum → JSNum → JSNum
  | nan, _ => nan
  | _, nan => nan
  | num a, num b => num (min a b)

/-- `Math.max` (NaN-propagating). -/
def jsMax : JSNum → JSNum → JSNum
  | nan, _ => nan
  | _, nan => nan
  | num a, num b => num (max a b)

/-- Object spread `\x7b...v\x7d`: objects copy their fields, strings and
arrays contribute index-keyed fields, primitives contribute nothing. -/
def spread : JSVal → Obj
  | vObj f => f
  | vStr s => s.toList.enum.map (fun p => (natToString p.1, vStr (String.singleton p.2)))
  | vArr xs => xs.enum.map (fun p => (natToString p.1, p.2))
  | _ => []

/-! ### `coerceStr` and `normalizeProblem`
    (src/unnamed/part_001 lines 114-168; the copy in
    src/api/generate-problem.js lines 100-154 is identical). -/

/-- The characters kept by `coerceStr`'s strip step (`[0-9.?-]`). -/
def allowedChar (c : Char) : Bool :=
  c.isDigit || c = '.' || c = '?' || c = '-'

/-- Replace the first `','` by `'.'` (`String.prototype.replace` with a
string pattern replaces only the first occurrence). -/
def replaceComma : List Char → List Char
  | [] => []
  | c :: cs => if c = ',' then '.' :: cs else c :: replaceComma cs

/-- `coerceStr(v)`: `''` for nullish, the two sentinels pass through,
otherwise `String(v)` with the first comma turned into a dot and every
character outside `[0-9.?-]` removed. -/
def coerceStr : JSVal → String
  | vUndef => ""
  | vNull => ""
  | vStr s =>
    if s = "?" || s = "RESULTADO_ANTERIOR" then s
    else String.mk ((replaceComma s.toList).filter allowedChar)
  | v => String.mk ((replaceComma (jsToString v).toList).filter allowedChar)

/-- The `data`/`labels` key triple of each simple problem type (§6 table). -/
def typeKeys (t : String) : Option (String × String × String) :=
  if t = "PPT" then some ("p1", "p2", "t")
  else if t = "UVT" then some ("u", "v", "t")
  else if t = "COMPARACION" then some ("cm", "cmen", "d")
  else if t = "CAMBIO" then some ("ci", "c", "cf")
  else none

/-- The per-type default label objects (`defaults` in the source). -/
def defaultLabels (t : String) : Option JSVal :=
  if t = "PPT" then
    some (vObj [("p1", vStr "Parte 1"), ("p2", vStr "Parte 2"), ("t", vStr "Total")])
  else if t = "UVT" then
    some (vObj [("u", vStr "Unidad"), ("v", vStr "Veces"), ("t", vStr "Total")])
  else if t = "COMPARACION" then
    some (vObj [("cm", vStr "Cantidad mayor"), ("cmen", vStr "Cantidad menor"),
                ("d", vStr "Diferencia")])
  else if t = "CAMBIO" then
    some (vObj [("ci", vStr "Cantidad inicial"), ("c", vStr "Cambio"),
                ("cf", vStr "Cantidad final")])
  else none

/-- `st.labels || defaults[st.type] || \x7b\x7d`. -/
def labelsOr (cur : JSVal) (t : String) : JSVal :=
  if truthy cur then cur
  else
    match defaultLabels t with
    | some l => l
    | none => vObj []

/-- `['+','-','*','/'].includes(v)`. -/
def isOpStr (v : JSVal) : Bool :=
  v = vStr "+" || v = vStr "-" || v = vStr "*" || v = vStr "/"

def coerceOp (v : JSVal) : JSVal := if isOpStr v then v else vStr "+"

/-- The data-reshaping common to steps and simple records: when the type is
one of the four table types, rebuild `data` from `\x7b...(x.data || \x7b\x7d)\x7d`
with exactly the table's key triple (third key defaulting to `"?"`);
otherwise `data` is left alone (`none`). -/
def reshapeData (t : String) (dataField : JSVal) : Option JSVal :=
  match typeKeys t with
  | some (k1, k2, k3) =>
    let d := spread (jsOrV dataField (vObj []))
    some (vObj [(k1, vStr (coerceStr (objGetD d k1))),
                (k2, vStr (coerceStr (objGetD d k2))),
                (k3, vStr (coerceStr (nullishOr (objGetD d k3) (vStr "?"))))])
  | none => none

/-- `Array.isArray` view. -/
def asArr : JSVal → Option (List JSVal)
  | vArr xs => some xs
  | _ => none

/-- `if (!o[k]) o[k] = v`. -/
def setIfFalsy (o : Obj) (k : String) (v : JSVal) : Obj :=
  if truthy (objGetD o k) then o else objSet o k v

/-- The simple (non-steps) tail of `normalizeProblem` (and the matching
part of the per-step body): reshape `data` when the type is a table type,
then set `labels`, `operation` and `answer`.  Stage 5: `data`. -/
def tailO5 (t : String) (o : Obj) : Obj :=
  match reshapeData t (objGetD o "data") with
  | some dv => objSet o "data" dv
  | none => o

/-- Stage 6: `labels`. -/
def tailO6 (t : String) (o : Obj) : Obj :=
  objSet (tailO5 t o) "labels" (labelsOr (objGetD (tailO5 t o) "labels") t)

/-- Stage 7: `operation`. -/
def tailO7 (t : String) (o : Obj) : Obj :=
  objSet (tailO6 t o) "operation" (coerceOp (objGetD (tailO6 t o) "operation"))

/-- Stage 8: `answer`. -/
def normalizeSimpleTail (t : String) (o : Obj) : Obj :=
  objSet (tailO7 t o) "answer" (vStr (coerceStr (objGetD (tailO7 t o) "answer")))

/-- The step's coerced type: `String(st.type || 'PPT').toUpperCase()`. -/
def stepT (s : JSVal) : String :=
  toUpperStr (jsToString (jsOrV (objGetD (spread s) "type") (vStr "PPT")))

def stepO1 (s : JSVal) : Obj := objSet (spread s) "type" (vStr (stepT s))

def stepO2 (s : JSVal) : Obj :=
  objSet (stepO1 s) "operation" (coerceOp (objGetD (stepO1 s) "operation"))

def stepO3 (s : JSVal) : Obj :=
  match reshapeData (stepT s) (objGetD (stepO2 s) "data") with
  | some dv => objSet (stepO2 s) "data" dv
  | none => stepO2 s

def stepO4 (s : JSVal) : Obj :=
  objSet (stepO3 s) "labels" (labelsOr (objGetD (stepO3 s) "labels") (stepT s))

/-- Final stage of the per-step body: `answer`. -/
def stepFields (s : JSVal) : Obj :=
  objSet (stepO4 s) "answer" (vStr (coerceStr (objGetD (stepO4 s) "answer")))

/-- Normalization of one step of a `DOS_OPERACIONES` record
(the `out.steps.slice(0, 2).map((s) => ...)` body): set `type`,
`operation`, `data` (reshaped for table types), `labels`, `answer`. -/
def normalizeStep (s : JSVal) : JSVal := vObj (stepFields s)

/-- `normalizeProblem`'s head, stage 2: spread the input, default `id`
(with the generated id) and `createdAt` (with `Date.now()`) when falsy. -/
def headO2 (p : JSVal) (now : ℚ) (freshId : String) : Obj :=
  setIfFalsy (setIfFalsy (spread p) "id" (vStr freshId)) "createdAt" (vNum (num now))

/-- Head stage 3: `out.grade = Number(out.grade ?? grade)`. -/
def headO3 (p ctxGrade : JSVal) (now : ℚ) (freshId : String) : Obj :=
  objSet (headO2 p now freshId) "grade"
    (vNum (jsToNumber (nullishOr (objGetD (headO2 p now freshId) "grade") ctxGrade)))

/-- The record's resulting type:
`String(out.type || type).toUpperCase()`. -/
def headT (p ctxGrade ctxType : JSVal) (now : ℚ) (freshId : String) : String :=
  toUpperStr (jsToString (jsOrV (objGetD (headO3 p ctxGrade now freshId) "type") ctxType))

/-- Head stage 4: `out.type` written back. -/
def headO4 (p ctxGrade ctxType : JSVal) (now : ℚ) (freshId : String) : Obj :=
  objSet (headO3 p ctxGrade now freshId) "type"
    (vStr (headT p ctxGrade ctxType now freshId))

/-- `normalizeProblem(p, \x7bgrade, type\x7d)`. The host primitives
`Date.now()` and `genId()` enter as the parameters `now` and `freshId`. -/
def normalizeProblem (p : JSVal) (ctxGrade ctxType : JSVal)
    (now : ℚ) (freshId : String) : JSVal :=
  match (if headT p ctxGrade ctxType now freshId = "DOS_OPERACIONES"
         then asArr (objGetD (headO4 p ctxGrade ctxType now freshId) "steps")
         else none) with
  | some ss =>
    vObj (objSet (headO4 p ctxGrade ctxType now freshId) "steps"
      (vArr ((ss.take 2).map normalizeStep)))
  | none =>
    vObj (normalizeSimpleTail (headT p ctxGrade ctxType now freshId)
      (headO4 p ctxGrade ctxType now freshId))

/-! ### Properties of `coerceStr` -/

/-- The §3 invariant as the code actually guarantees it: a value written
into `data`/`answer` is one of the two sentinels or a string drawn only
from the characters `0-9 . - ?`. -/
def goodVal (s : String) : Bool :=
  s = "?" || s = "RESULTADO_ANTERIOR" || s.toList.all allowedChar

theorem replaceComma_of_not_mem (cs : List Char) (h : ',' ∉ cs) :
    replaceComma cs = cs := by
  induction cs with
  | nil => rfl
  | cons c cs ih =>
    simp only [List.mem_cons, not_or] at h
    have hc : ¬ c = ',' := fun hc => h.1 hc.symm
    simp [replaceComma, hc, ih h.2]

theorem filter_allowed_all (cs : List Char) :
    (cs.filter allowedChar).all allowedChar = true :=
  List.all_eq_true.mpr (fun _ ha => (List.mem_filter.mp ha).2)

theorem string_mk_toList (s : String) : String.mk s.toList = s := rfl

theorem coerceStr_goodVal (v : JSVal) : goodVal (coerceStr v) = true := by
  cases v with
  | vStr s =>
    by_cases h : s = "?" || s = "RESULTADO_ANTERIOR"
    · rcases Bool.or_eq_true_iff.mp h with h | h <;>
        simp_all [coerceStr, goodVal, decide_eq_true_eq]
    · simp only [coerceStr, h, if_false, Bool.false_eq_true]
      simp [goodVal, String.toList, filter_allowed_all]
  | vUndef => simp [coerceStr, goodVal]
  | vNull => simp [coerceStr, goodVal]
  | vBool b => simp [coerceStr, goodVal, String.toList, filter_allowed_all]
  | vNum n => simp [coerceStr, goodVal, String.toList, filter_allowed_all]
  | vArr xs => simp [coerceStr, goodVal, String.toList, filter_allowed_all]
  | vObj fs => simp [coerceStr, goodVal, String.toList, filter_allowed_all]

/-- A value that `coerceStr` has already produced passes through unchanged. -/
theorem coerceStr_stable (w : String) (h : goodVal w = true) :
    coerceStr (vStr w) = w := by
  by_cases hs : w = "?" || w = "RESULTADO_ANTERIOR"
  · simp [coerceStr, hs]
  · have hall : w.toList.all allowedChar = true := by
      simp only [goodVal, Bool.or_eq_true_iff] at h
      rcases h with h | h
      · exact absurd h (by simpa [Bool.or_eq_true_iff] using hs)
      · exact h
    have hnc : ',' ∉ w.toList := by
      intro hm
      have := List.all_eq_true.mp hall _ hm
      simp [allowedChar] at this
    have hfl : w.toList.filter allowedChar = w.toList :=
      List.filter_eq_self.mpr (fun a ha => List.all_eq_true.mp hall a ha)
    simp only [coerceStr, hs, if_false, Bool.false_eq_true,
      replaceComma_of_not_mem _ hnc, hfl, string_mk_toList]

/-- `coerceStr` is idempotent (via strings). -/
theorem coerceStr_idem (v : JSVal) :
    coerceStr (vStr (coerceStr v)) = coerceStr v :=
  coerceStr_stable _ (coerceStr_goodVal v)

/-- Modelled from the spec (§4.4): "replace decimal comma with decimal
point, then strip every character that is not a digit, `.`, `-`, or the
`?` sentinel". -/
def coerceStrSpec (s : String) : String :=
  String.mk ((replaceComma s.toList).filter allowedChar)

/-- C8: numeric-string coercion: `"12,5" ↦ "12.5"`, `"$12" ↦ "12"`,
`"?" ↦ "?"`, `"RESULTADO_ANTERIOR" ↦ "RESULTADO_ANTERIOR"`, and every
non-sentinel string is sent through first-comma-to-dot replacement
followed by stripping of all characters outside `0-9 . - ?` (the two
sentinels pass through unchanged, as the claim's own examples state). -/
theorem coerceStr_characterization :
    coerceStr (vStr "12,5") = "12.5" ∧
    coerceStr (vStr "$12") = "12" ∧
    coerceStr (vStr "?") = "?" ∧
    coerceStr (vStr "RESULTADO_ANTERIOR") = "RESULTADO_ANTERIOR" ∧
    ∀ s : String, s ≠ "?" → s ≠ "RESULTADO_ANTERIOR" →
      coerceStr (vStr s) = coerceStrSpec s := by
  refine ⟨by decide, by decide, by decide, by decide, ?_⟩
  intro s h1 h2
  simp [coerceStr, coerceStrSpec, h1, h2]

/-- Witness for C8 at the concrete input `"$12"`. -/
theorem coerceStr_characterization_witness :
    coerceStr (vStr "$12") = coerceStrSpec "$12" :=
  coerceStr_characterization.2.2.2.2 "$12" (by decide) (by decide)

/-! ### The shape `normalizeProblem` guarantees -/

/-- Field list of a record (normalized records are always objects). -/
def recFields : JSVal → Obj
  | vObj f => f
  | _ => []

/-- A `data` object holding exactly the key triple `ks` in table order,
with `coerceStr`-produced string values. -/
def shapedData (d : JSVal) (ks : String × String × String) : Bool :=
  match d with
  | vObj [(a, vStr w1), (b, vStr w2), (c, vStr w3)] =>
    a = ks.1 && b = ks.2.1 && c = ks.2.2 &&
      goodVal w1 && goodVal w2 && goodVal w3
  | _ => false

/-- The shape of the `labels`/`operation`/`answer`/`data` block shared by
steps and simple records. -/
def blockNormalized (f : Obj) (t : String) : Bool :=
  (match typeKeys t with
   | some ks =>
     (match objGet f "data" with
      | some d => shapedData d ks
      | none => false)
   | none => true) &&
  (match objGet f "labels" with
   | some l => truthy l
   | none => false) &&
  isOpStr (objGetD f "operation") &&
  (match objGet f "answer" with
   | some (vStr a) => goodVal a
   | _ => false)

/-- Shape of a normalized step. -/
def stepNormalized (v : JSVal) : Bool :=
  match v with
  | vObj f =>
    (match objGet f "type" with
     | some (vStr t) => toUpperStr t = t && blockNormalized f t
     | _ => false)
  | _ => false

/-- Shape of a normalized record. -/
def recNormalized (v : JSVal) : Bool :=
  match v with
  | vObj f =>
    truthy (objGetD f "id") &&
    truthy (objGetD f "createdAt") &&
    (match objGet f "grade" with
     | some (vNum _) => true
     | _ => false) &&
    (match objGet f "type" with
     | some (vStr t) =>
       toUpperStr t = t &&
       (match (if t = "DOS_OPERACIONES" then asArr (objGetD f "steps") else none) with
        | some ss => decide (ss.length ≤ 2) && ss.all stepNormalized
        | none => blockNormalized f t)
     | _ => false)
  | _ => false

/-- The resulting type of the record (and of each step, in the steps
branch) is a non-empty string.  The empty type arises only from inputs
whose `type` field is truthy yet stringifies to `""` (e.g. `type: []`). -/
def typesNonempty (v : JSVal) : Bool :=
  match v with
  | vObj f =>
    (match objGet f "type" with
     | some (vStr t) =>
       t ≠ "" &&
       (match (if t = "DOS_OPERACIONES" then asArr (objGetD f "steps") else none) with
        | some ss =>
          ss.all (fun s =>
            match s with
            | vObj sf =>
              (match objGet sf "type" with
               | some (vStr st') => st' ≠ ""
               | _ => false)
            | _ => false)
        | none => true)
     | _ => false)
  | _ => false

/-! ### Getter lemmas for the normalization stages -/

theorem setIfFalsy_get_ne (o : Obj) (k : String) (v : JSVal) (k' : String)
    (h : k ≠ k') : objGet (setIfFalsy o k v) k' = objGet o k' := by
  unfold setIfFalsy
  split_ifs
  · rfl
  · exact objGet_objSet_ne _ _ _ _ h

theorem setIfFalsy_truthy (o : Obj) (k : String) (v : JSVal)
    (hv : truthy v = true) : truthy (objGetD (setIfFalsy o k v) k) = true := by
  unfold setIfFalsy
  split_ifs with h
  · exact h
  · unfold objGetD
    rw [objGet_objSet_self]
    exact hv

theorem tailO5_get_ne (t : String) (o : Obj) (k : String) (hk : k ≠ "data") :
    objGet (tailO5 t o) k = objGet o k := by
  unfold tailO5
  cases reshapeData t (objGetD o "data") with
  | none => rfl
  | some dv => exact objGet_objSet_ne _ _ _ _ (Ne.symm hk)

theorem tail_get_ne (t : String) (o : Obj) (k : String)
    (h1 : k ≠ "data") (h2 : k ≠ "labels") (h3 : k ≠ "operation")
    (h4 : k ≠ "answer") :
    objGet (normalizeSimpleTail t o) k = objGet o k := by
  unfold normalizeSimpleTail tailO7 tailO6
  rw [objGet_objSet_ne _ _ _ _ (Ne.symm h4), objGet_objSet_ne _ _ _ _ (Ne.symm h3),
      objGet_objSet_ne _ _ _ _ (Ne.symm h2), tailO5_get_ne t o k h1]

theorem tail_get_answer (t : String) (o : Obj) :
    ∃ x, objGet (normalizeSimpleTail t o) "answer" = some (vStr (coerceStr x)) :=
  ⟨_, by unfold normalizeSimpleTail; exact objGet_objSet_self _ _ _⟩

theorem tail_get_operation (t : String) (o : Obj) :
    ∃ x, objGet (normalizeSimpleTail t o) "operation" = some (coerceOp x) :=
  ⟨_, by
    unfold normalizeSimpleTail tailO7
    rw [objGet_objSet_ne _ _ _ _ (by decide)]
    exact objGet_objSet_self _ _ _⟩

theorem tail_get_labels (t : String) (o : Obj) :
    ∃ x, objGet (normalizeSimpleTail t o) "labels" = some (labelsOr x t) :=
  ⟨_, by
    unfold normalizeSimpleTail tailO7 tailO6
    rw [objGet_objSet_ne _ _ _ _ (by decide), objGet_objSet_ne _ _ _ _ (by decide)]
    exact objGet_objSet_self _ _ _⟩

theorem reshapeData_shaped (t : String) (df : JSVal)
    (ks : String × String × String) (hk : typeKeys t = some ks) :
    ∃ dv, reshapeData t df = some dv ∧ shapedData dv ks = true := by
  obtain ⟨k1, k2, k3⟩ := ks
  refine ⟨vObj [(k1, vStr (coerceStr (objGetD (spread (jsOrV df (vObj []))) k1))),
               (k2, vStr (coerceStr (objGetD (spread (jsOrV df (vObj []))) k2))),
               (k3, vStr (coerceStr (nullishOr (objGetD (spread (jsOrV df (vObj []))) k3)
                 (vStr "?"))))], ?_, ?_⟩
  · simp [reshapeData, hk]
  · simp [shapedData, coerceStr_goodVal]

theorem tail_get_data (t : String) (o : Obj) (ks : String × String × String)
    (hk : typeKeys t = some ks) :
    ∃ dv, objGet (normalizeSimpleTail t o) "data" = some dv ∧
      shapedData dv ks = true := by
  obtain ⟨dv, hre, hsh⟩ := reshapeData_shaped t (objGetD o "data") ks hk
  refine ⟨dv, ?_, hsh⟩
  unfold normalizeSimpleTail tailO7 tailO6
  rw [objGet_objSet_ne _ _ _ _ (by decide), objGet_objSet_ne _ _ _ _ (by decide),
      objGet_objSet_ne _ _ _ _ (by decide)]
  unfold tailO5
  rw [hre]
  exact objGet_objSet_self _ _ _

theorem labelsOr_truthy (cur : JSVal) (t : String) :
    truthy (labelsOr cur t) = true := by
  unfold labelsOr
  split_ifs with h
  · exact h
  · unfold defaultLabels
    split_ifs <;> simp [truthy]

theorem coerceOp_isOp (v : JSVal) : isOpStr (coerceOp v) = true := by
  unfold coerceOp
  split_ifs with h
  · exact h
  · decide

/-- The `labels`/`operation`/`answer`/`data` block of a simple tail is
always in normalized shape. -/
theorem tail_blockNormalized (t : String) (o : Obj) :
    blockNormalized (normalizeSimpleTail t o) t = true := by
  obtain ⟨x, hx⟩ := tail_get_answer t o
  obtain ⟨y, hy⟩ := tail_get_operation t o
  obtain ⟨z, hz⟩ := tail_get_labels t o
  unfold blockNormalized objGetD
  rw [hx, hy, hz]
  cases hts : typeKeys t with
  | some ks =>
    obtain ⟨dv, hdv, hsh⟩ := tail_get_data t o ks hts
    rw [hdv]
    simp [labelsOr_truthy, coerceOp_isOp, coerceStr_goodVal, hsh]
  | none =>
    simp [labelsOr_truthy, coerceOp_isOp, coerceStr_goodVal]

/-! ### Step getters -/

theorem stepO3_get_ne (s : JSVal) (k : String) (hk : k ≠ "data") :
    objGet (stepO3 s) k = objGet (stepO2 s) k := by
  unfold stepO3
  cases reshapeData (stepT s) (objGetD (stepO2 s) "data") with
  | none => rfl
  | some dv => exact objGet_objSet_ne _ _ _ _ (Ne.symm hk)

theorem step_get_ne (s : JSVal) (k : String)
    (h1 : k ≠ "type") (h2 : k ≠ "operation") (h3 : k ≠ "data")
    (h4 : k ≠ "labels") (h5 : k ≠ "answer") :
    objGet (stepFields s) k = objGet (spread s) k := by
  unfold stepFields stepO4
  rw [objGet_objSet_ne _ _ _ _ (Ne.symm h5), objGet_objSet_ne _ _ _ _ (Ne.symm h4),
      stepO3_get_ne s k h3]
  unfold stepO2 stepO1
  rw [objGet_objSet_ne _ _ _ _ (Ne.symm h2), objGet_objSet_ne _ _ _ _ (Ne.symm h1)]

theorem step_get_type (s : JSVal) :
    objGet (stepFields s) "type" = some (vStr (stepT s)) := by
  unfold stepFields stepO4
  rw [objGet_objSet_ne _ _ _ _ (by decide), objGet_objSet_ne _ _ _ _ (by decide),
      stepO3_get_ne s "type" (by decide)]
  unfold stepO2 stepO1
  rw [objGet_objSet_ne _ _ _ _ (by decide)]
  exact objGet_objSet_self _ _ _

theorem step_get_answer (s : JSVal) :
    ∃ x, objGet (stepFields s) "answer" = some (vStr (coerceStr x)) :=
  ⟨_, by unfold stepFields; exact objGet_objSet_self _ _ _⟩

theorem step_get_labels (s : JSVal) :
    ∃ x, objGet (stepFields s) "labels" = some (labelsOr x (stepT s)) :=
  ⟨_, by
    unfold stepFields stepO4
    rw [objGet_objSet_ne _ _ _ _ (by decide)]
    exact objGet_objSet_self _ _ _⟩

theorem step_get_operation (s : JSVal) :
    ∃ x, objGet (stepFields s) "operation" = some (coerceOp x) :=
  ⟨_, by
    unfold stepFields stepO4
    rw [objGet_objSet_ne _ _ _ _ (by decide), objGet_objSet_ne _ _ _ _ (by decide),
        stepO3_get_ne s "operation" (by decide)]
    unfold stepO2
    exact objGet_objSet_self _ _ _⟩

theorem step_get_data (s : JSVal) (ks : String × String × String)
    (hk : typeKeys (stepT s) = some ks) :
    ∃ dv, objGet (stepFields s) "data" = some dv ∧ shapedData dv ks = true := by
  obtain ⟨dv, hre, hsh⟩ := reshapeData_shaped (stepT s) (objGetD (stepO2 s) "data") ks hk
  refine ⟨dv, ?_, hsh⟩
  unfold stepFields stepO4
  rw [objGet_objSet_ne _ _ _ _ (by decide), objGet_objSet_ne _ _ _ _ (by decide)]
  unfold stepO3
  rw [hre]
  exact objGet_objSet_self _ _ _

theorem step_blockNormalized (s : JSVal) :
    blockNormalized (stepFields s) (stepT s) = true := by
  obtain ⟨x, hx⟩ := step_get_answer s
  obtain ⟨y, hy⟩ := step_get_operation s
  obtain ⟨z, hz⟩ := step_get_labels s
  unfold blockNormalized objGetD
  rw [hx, hy, hz]
  cases hts : typeKeys (stepT s) with
  | some ks =>
    obtain ⟨dv, hdv, hsh⟩ := step_get_data s ks hts
    rw [hdv]
    simp [labelsOr_truthy, coerceOp_isOp, coerceStr_goodVal, hsh]
  | none =>
    simp [labelsOr_truthy, coerceOp_isOp, coerceStr_goodVal]

theorem stepT_upper (s : JSVal) : toUpperStr (stepT s) = stepT s := by
  unfold stepT
  exact toUpperStr_idem _

/-- Every step produced by `normalizeStep` has the normalized step shape. -/
theorem step_normalized (s : JSVal) : stepNormalized (normalizeStep s) = true := by
  unfold normalizeStep stepNormalized
  simp only []
  rw [step_get_type]
  simp [stepT_upper, step_blockNormalized]

/-! ### Head getters -/

theorem headO2_get_ne (p : JSVal) (now : ℚ) (i : String) (k : String)
    (h1 : k ≠ "id") (h2 : k ≠ "createdAt") :
    objGet (headO2 p now i) k = objGet (spread p) k := by
  unfold headO2
  rw [setIfFalsy_get_ne _ _ _ _ (Ne.symm h2), setIfFalsy_get_ne _ _ _ _ (Ne.symm h1)]

theorem headO4_get_ne (p g t : JSVal) (now : ℚ) (i : String) (k : String)
    (h1 : k ≠ "id") (h2 : k ≠ "createdAt") (h3 : k ≠ "grade")
    (h4 : k ≠ "type") :
    objGet (headO4 p g t now i) k = objGet (spread p) k := by
  unfold headO4 headO3
  rw [objGet_objSet_ne _ _ _ _ (Ne.symm h4), objGet_objSet_ne _ _ _ _ (Ne.symm h3),
      headO2_get_ne p now i k h1 h2]

theorem headO4_get_type (p g t : JSVal) (now : ℚ) (i : String) :
    objGet (headO4 p g t now i) "type" = some (vStr (headT p g t now i)) := by
  unfold headO4
  exact objGet_objSet_self _ _ _

theorem headT_upper (p g t : JSVal) (now : ℚ) (i : String) :
    toUpperStr (headT p g t now i) = headT p g t now i := by
  unfold headT
  exact toUpperStr_idem _

theorem head_truthy_id (p g t : JSVal) (now : ℚ) (i : String) (hi : i ≠ "") :
    truthy (objGetD (headO4 p g t now i) "id") = true := by
  unfold objGetD headO4 headO3
  rw [objGet_objSet_ne _ _ _ _ (by decide), objGet_objSet_ne _ _ _ _ (by decide)]
  unfold headO2
  rw [setIfFalsy_get_ne _ _ _ _ (by decide)]
  have h := setIfFalsy_truthy (spread p) "id" (vStr i) (by simp [truthy, hi])
  unfold objGetD at h
  exact h

theorem head_truthy_createdAt (p g t : JSVal) (now : ℚ) (i : String)
    (hn : now ≠ 0) :
    truthy (objGetD (headO4 p g t now i) "createdAt") = true := by
  unfold objGetD headO4 headO3
  rw [objGet_objSet_ne _ _ _ _ (by decide), objGet_objSet_ne _ _ _ _ (by decide)]
  have h := setIfFalsy_truthy (setIfFalsy (spread p) "id" (vStr i)) "createdAt"
    (vNum (num now)) (by simp [truthy, hn])
  unfold objGetD at h
  unfold headO2
  exact h

theorem head_get_grade (p g t : JSVal) (now : ℚ) (i : String) :
    ∃ n, objGet (headO4 p g t now i) "grade" = some (vNum n) :=
  ⟨_, by
    unfold headO4 headO3
    rw [objGet_objSet_ne _ _ _ _ (by decide)]
    exact objGet_objSet_self _ _ _⟩

/-- The resulting type depends only on the input's `type` field and the
fallback context type. -/
def resultType (p ctxType : JSVal) : String :=
  toUpperStr (jsToString (jsOrV (objGetD (spread p) "type") ctxType))

theorem headT_eq_resultType (p g t : JSVal) (now : ℚ) (i : String) :
    headT p g t now i = resultType p t := by
  unfold headT resultType objGetD headO3
  rw [objGet_objSet_ne _ _ _ _ (by decide),
      headO2_get_ne p now i "type" (by decide) (by decide)]

/-- Every record produced by `normalizeProblem` has the normalized shape
(provided the generated id is non-empty and the clock is non-zero, which
`genId`/`Date.now` guarantee). -/
theorem normalizeProblem_normalized (p g t : JSVal) (now : ℚ) (i : String)
    (hi : i ≠ "") (hn : now ≠ 0) :
    recNormalized (normalizeProblem p g t now i) = true := by
  unfold normalizeProblem
  cases hbr : (if headT p g t now i = "DOS_OPERACIONES"
               then asArr (objGetD (headO4 p g t now i) "steps") else none) with
  | some ss =>
    have hT : headT p g t now i = "DOS_OPERACIONES" := by
      by_cases hne : headT p g t now i = "DOS_OPERACIONES"
      · exact hne
      · rw [if_neg hne] at hbr; cases hbr
    unfold recNormalized
    simp only []
    have hid : truthy (objGetD (objSet (headO4 p g t now i) "steps"
        (vArr ((ss.take 2).map normalizeStep))) "id") = true := by
      unfold objGetD
      rw [objGet_objSet_ne _ _ _ _ (by decide)]
      have h := head_truthy_id p g t now i hi
      unfold objGetD at h
      exact h
    have hcr : truthy (objGetD (objSet (headO4 p g t now i) "steps"
        (vArr ((ss.take 2).map normalizeStep))) "createdAt") = true := by
      unfold objGetD
      rw [objGet_objSet_ne _ _ _ _ (by decide)]
      have h := head_truthy_createdAt p g t now i hn
      unfold objGetD at h
      exact h
    obtain ⟨n, hgr⟩ := head_get_grade p g t now i
    have hgr' : objGet (objSet (headO4 p g t now i) "steps"
        (vArr ((ss.take 2).map normalizeStep))) "grade" = some (vNum n) := by
      rw [objGet_objSet_ne _ _ _ _ (by decide)]
      exact hgr
    have hty : objGet (objSet (headO4 p g t now i) "steps"
        (vArr ((ss.take 2).map normalizeStep))) "type"
        = some (vStr (headT p g t now i)) := by
      rw [objGet_objSet_ne _ _ _ _ (by decide)]
      exact headO4_get_type p g t now i
    have hst : objGetD (objSet (headO4 p g t now i) "steps"
        (vArr ((ss.take 2).map normalizeStep))) "steps"
        = vArr ((ss.take 2).map normalizeStep) := by
      unfold objGetD
      rw [objGet_objSet_self]
      rfl
    have hlen : ((ss.take 2).map normalizeStep).length ≤ 2 := by
      simp [List.length_map, List.length_take]
    have hall : ((ss.take 2).map normalizeStep).all stepNormalized = true :=
      List.all_eq_true.mpr (by
        intro x hx
        obtain ⟨y, _, rfl⟩ := List.mem_map.mp hx
        exact step_normalized y)
    have hupT : toUpperStr "DOS_OPERACIONES" = "DOS_OPERACIONES" := by decide
    rw [hgr', hty]
    generalize hgen : (ss.take 2).map normalizeStep = ss2 at hid hcr hst hlen hall ⊢
    simp [hid, hcr, hst, hT, hupT, asArr, hlen, hall]
  | none =>
    unfold recNormalized
    simp only []
    have hid : truthy (objGetD (normalizeSimpleTail (headT p g t now i)
        (headO4 p g t now i)) "id") = true := by
      unfold objGetD
      rw [tail_get_ne _ _ _ (by decide) (by decide) (by decide) (by decide)]
      have h := head_truthy_id p g t now i hi
      unfold objGetD at h
      exact h
    have hcr : truthy (objGetD (normalizeSimpleTail (headT p g t now i)
        (headO4 p g t now i)) "createdAt") = true := by
      unfold objGetD
      rw [tail_get_ne _ _ _ (by decide) (by decide) (by decide) (by decide)]
      have h := head_truthy_createdAt p g t now i hn
      unfold objGetD at h
      exact h
    obtain ⟨n, hgr⟩ := head_get_grade p g t now i
    have hgr' : objGet (normalizeSimpleTail (headT p g t now i)
        (headO4 p g t now i)) "grade" = some (vNum n) := by
      rw [tail_get_ne _ _ _ (by decide) (by decide) (by decide) (by decide)]
      exact hgr
    have hty : objGet (normalizeSimpleTail (headT p g t now i)
        (headO4 p g t now i)) "type" = some (vStr (headT p g t now i)) := by
      rw [tail_get_ne _ _ _ (by decide) (by decide) (by decide) (by decide)]
      exact headO4_get_type p g t now i
    have hnone : (if headT p g t now i = "DOS_OPERACIONES"
        then asArr (objGetD (normalizeSimpleTail (headT p g t now i)
          (headO4 p g t now i)) "steps") else none) = none := by
      by_cases hT : headT p g t now i = "DOS_OPERACIONES"
      · rw [if_pos hT]
        rw [if_pos hT] at hbr
        unfold objGetD
        rw [tail_get_ne _ _ _ (by decide) (by decide) (by decide) (by decide)]
        unfold objGetD at hbr
        exact hbr
      · rw [if_neg hT]
    rw [hgr', hty]
    simp only [hnone]
    simp [hid, hcr, headT_upper, tail_blockNormalized]

/-! ### Normalization is a fixpoint on normalized shapes -/

theorem shapedData_elim (d : JSVal) (ks : String × String × String)
    (h : shapedData d ks = true) :
    ∃ w1 w2 w3, d = vObj [(ks.1, vStr w1), (ks.2.1, vStr w2), (ks.2.2, vStr w3)] ∧
      goodVal w1 = true ∧ goodVal w2 = true ∧ goodVal w3 = true := by
  unfold shapedData at h
  split at h
  case _ a w1 b w2 c w3 =>
    simp only [Bool.and_eq_true, decide_eq_true_eq] at h
    obtain ⟨⟨⟨⟨⟨ha, hb⟩, hc⟩, h1⟩, h2⟩, h3⟩ := h
    exact ⟨w1, w2, w3, by rw [ha, hb, hc], h1, h2, h3⟩
  case _ => cases h

theorem typeKeys_distinct (T : String) (k1 k2 k3 : String)
    (htk : typeKeys T = some (k1, k2, k3)) :
    k1 ≠ k2 ∧ k1 ≠ k3 ∧ k2 ≠ k3 := by
  unfold typeKeys at htk
  split_ifs at htk
  all_goals
    first
      | exact Option.noConfusion htk
      | (simp only [Option.some.injEq, Prod.mk.injEq] at htk
         obtain ⟨ha, hb, hc⟩ := htk
         subst ha
         subst hb
         subst hc
         exact ⟨by decide, by decide, by decide⟩)

/-- Reshaping a `data` object that already has the normalized shape
reproduces it exactly. -/
theorem reshape_of_shaped (T : String) (d : JSVal) (ks : String × String × String)
    (htk : typeKeys T = some ks) (hsh : shapedData d ks = true) :
    reshapeData T d = some d := by
  obtain ⟨w1, w2, w3, rfl, hg1, hg2, hg3⟩ := shapedData_elim d ks hsh
  obtain ⟨k1, k2, k3⟩ := ks
  obtain ⟨hd12, hd13, hd23⟩ := typeKeys_distinct T k1 k2 k3 htk
  unfold reshapeData
  rw [htk]
  simp [spread, jsOrV, truthy, objGetD, objGet, hd12, hd13, hd23, nullishOr,
        coerceStr_stable _ hg1, coerceStr_stable _ hg2, coerceStr_stable _ hg3]

theorem stepT_of (sf : Obj) (T : String)
    (hty : objGet sf "type" = some (vStr T)) (hup : toUpperStr T = T)
    (hne : T ≠ "") : stepT (vObj sf) = T := by
  unfold stepT spread objGetD
  rw [hty]
  simp [jsOrV, truthy, hne, jsToString, hup]

/-- A normalized step with a non-empty type is a fixpoint of
`normalizeStep`. -/
theorem step_fixed (sf : Obj) (T : String)
    (hty : objGet sf "type" = some (vStr T))
    (hup : toUpperStr T = T)
    (hbl : blockNormalized sf T = true)
    (hne : T ≠ "") :
    normalizeStep (vObj sf) = vObj sf := by
  simp only [blockNormalized, Bool.and_eq_true] at hbl
  obtain ⟨⟨⟨hdata, hlab⟩, hop⟩, hans⟩ := hbl
  have hT := stepT_of sf T hty hup hne
  have h1 : stepO1 (vObj sf) = sf := by
    unfold stepO1
    rw [hT]
    exact objSet_of_objGet_eq _ _ _ hty
  have h2 : stepO2 (vObj sf) = sf := by
    unfold stepO2
    rw [h1]
    cases hop2 : objGet sf "operation" with
    | none =>
      exfalso
      unfold objGetD at hop
      rw [hop2] at hop
      simp [isOpStr] at hop
    | some x =>
      have hx : objGetD sf "operation" = x := by
        unfold objGetD; rw [hop2]; rfl
      rw [hx]
      have hcoe : coerceOp x = x := by
        unfold coerceOp
        rw [if_pos]
        rw [← hx]
        exact hop
      rw [hcoe]
      exact objSet_of_objGet_eq _ _ _ hop2
  have h3 : stepO3 (vObj sf) = sf := by
    unfold stepO3
    rw [hT, h2]
    cases htk : typeKeys T with
    | none =>
      have : reshapeData T (objGetD sf "data") = none := by
        unfold reshapeData; rw [htk]
      rw [this]
    | some ks =>
      rw [htk] at hdata
      cases hd : objGet sf "data" with
      | none => rw [hd] at hdata; cases hdata
      | some d =>
        rw [hd] at hdata
        have hgd : objGetD sf "data" = d := by
          unfold objGetD; rw [hd]; rfl
        rw [hgd, reshape_of_shaped T d ks htk hdata]
        exact objSet_of_objGet_eq _ _ _ hd
  have h4 : stepO4 (vObj sf) = sf := by
    unfold stepO4
    rw [hT, h3]
    cases hl : objGet sf "labels" with
    | none => rw [hl] at hlab; cases hlab
    | some l =>
      rw [hl] at hlab
      have hgl : objGetD sf "labels" = l := by
        unfold objGetD; rw [hl]; rfl
      rw [hgl]
      have : labelsOr l T = l := by
        unfold labelsOr; rw [if_pos hlab]
      rw [this]
      exact objSet_of_objGet_eq _ _ _ hl
  unfold normalizeStep stepFields
  rw [h4]
  cases ha : objGet sf "answer" with
  | none => rw [ha] at hans; cases hans
  | some a =>
    rw [ha] at hans
    cases a with
    | vStr w =>
      have hga : objGetD sf "answer" = vStr w := by
        unfold objGetD; rw [ha]; rfl
      rw [hga, coerceStr_stable w hans]
      rw [objSet_of_objGet_eq _ _ _ ha]
    | vUndef => cases hans
    | vNull => cases hans
    | vBool b => cases hans
    | vNum n => cases hans
    | vArr xs => cases hans
    | vObj fs => cases hans

theorem setIfFalsy_of_truthy (o : Obj) (k : String) (v : JSVal)
    (h : truthy (objGetD o k) = true) : setIfFalsy o k v = o := by
  unfold setIfFalsy
  rw [if_pos h]

/-- A normalized `labels`/`operation`/`answer`/`data` block is a fixpoint
of the simple tail. -/
theorem tail_fixed (f : Obj) (T : String)
    (hbl : blockNormalized f T = true) :
    normalizeSimpleTail T f = f := by
  simp only [blockNormalized, Bool.and_eq_true] at hbl
  obtain ⟨⟨⟨hdata, hlab⟩, hop⟩, hans⟩ := hbl
  have h5 : tailO5 T f = f := by
    unfold tailO5
    cases htk : typeKeys T with
    | none =>
      have : reshapeData T (objGetD f "data") = none := by
        unfold reshapeData; rw [htk]
      rw [this]
    | some ks =>
      rw [htk] at hdata
      cases hd : objGet f "data" with
      | none => rw [hd] at hdata; cases hdata
      | some d =>
        rw [hd] at hdata
        have hgd : objGetD f "data" = d := by
          unfold objGetD; rw [hd]; rfl
        rw [hgd, reshape_of_shaped T d ks htk hdata]
        exact objSet_of_objGet_eq _ _ _ hd
  have h6 : tailO6 T f = f := by
    unfold tailO6
    rw [h5]
    cases hl : objGet f "labels" with
    | none => rw [hl] at hlab; cases hlab
    | some l =>
      rw [hl] at hlab
      have hgl : objGetD f "labels" = l := by
        unfold objGetD; rw [hl]; rfl
      rw [hgl]
      have : labelsOr l T = l := by
        unfold labelsOr; rw [if_pos hlab]
      rw [this]
      exact objSet_of_objGet_eq _ _ _ hl
  have h7 : tailO7 T f = f := by
    unfold tailO7
    rw [h6]
    cases hop2 : objGet f "operation" with
    | none =>
      exfalso
      unfold objGetD at hop
      rw [hop2] at hop
      simp [isOpStr] at hop
    | some x =>
      have hx : objGetD f "operation" = x := by
        unfold objGetD; rw [hop2]; rfl
      rw [hx]
      have hcoe : coerceOp x = x := by
        unfold coerceOp
        rw [if_pos]
        rw [← hx]
        exact hop
      rw [hcoe]
      exact objSet_of_objGet_eq _ _ _ hop2
  unfold normalizeSimpleTail
  rw [h7]
  cases ha : objGet f "answer" with
  | none => rw [ha] at hans; cases hans
  | some a =>
    rw [ha] at hans
    cases a with
    | vStr w =>
      have hga : objGetD f "answer" = vStr w := by
        unfold objGetD; rw [ha]; rfl
      rw [hga, coerceStr_stable w hans]
      exact objSet_of_objGet_eq _ _ _ ha
    | vUndef => cases hans
    | vNull => cases hans
    | vBool b => cases hans
    | vNum n => cases hans
    | vArr xs => cases hans
    | vObj fs => cases hans

theorem grade_elim (f : Obj)
    (h : (match objGet f "grade" with
          | some (vNum _) => true
          | _ => false) = true) :
    ∃ n, objGet f "grade" = some (vNum n) := by
  cases hg : objGet f "grade" with
  | none => rw [hg] at h; cases h
  | some v =>
    cases v with
    | vNum n => exact ⟨n, rfl⟩
    | vUndef => rw [hg] at h; cases h
    | vNull => rw [hg] at h; cases h
    | vBool b => rw [hg] at h; cases h
    | vStr s => rw [hg] at h; cases h
    | vArr xs => rw [hg] at h; cases h
    | vObj fs => rw [hg] at h; cases h

/-- A normalized record whose (record and step) types are non-empty is a
fixpoint of `normalizeProblem`, whatever the context, clock or ids of the
second run. -/
theorem normalizeProblem_fixed (f : Obj)
    (hrn : recNormalized (vObj f) = true)
    (htn : typesNonempty (vObj f) = true)
    (g t : JSVal) (now : ℚ) (i : String) :
    normalizeProblem (vObj f) g t now i = vObj f := by
  unfold recNormalized at hrn
  simp only [Bool.and_eq_true] at hrn
  obtain ⟨⟨⟨hid, hcr⟩, hgrm⟩, htym⟩ := hrn
  obtain ⟨n, hgr⟩ := grade_elim f hgrm
  unfold typesNonempty at htn
  simp only [] at htn
  cases hty : objGet f "type" with
  | none => rw [hty] at htym; cases htym
  | some tv =>
    cases tv with
    | vStr T =>
      rw [hty] at htym htn
      simp only [Bool.and_eq_true, decide_eq_true_eq] at htym htn
      obtain ⟨hup, hbranch⟩ := htym
      obtain ⟨hTne, hsteps⟩ := htn
      -- the head reproduces `f`
      have hh2 : headO2 (vObj f) now i = f := by
        unfold headO2
        rw [show spread (vObj f) = f from rfl,
            setIfFalsy_of_truthy _ _ _ hid, setIfFalsy_of_truthy _ _ _ hcr]
      have hh3 : headO3 (vObj f) g now i = f := by
        unfold headO3
        rw [hh2]
        have hgd : objGetD f "grade" = vNum n := by
          unfold objGetD; rw [hgr]; rfl
        rw [hgd]
        exact objSet_of_objGet_eq _ _ _ hgr
      have hhT : headT (vObj f) g t now i = T := by
        unfold headT
        rw [hh3]
        have hgd : objGetD f "type" = vStr T := by
          unfold objGetD; rw [hty]; rfl
        rw [hgd]
        simp [jsOrV, truthy, hTne, jsToString, hup]
      have hh4 : headO4 (vObj f) g t now i = f := by
        unfold headO4
        rw [hhT, hh3]
        exact objSet_of_objGet_eq _ _ _ hty
      unfold normalizeProblem
      rw [hhT, hh4]
      cases hbr : (if T = "DOS_OPERACIONES" then asArr (objGetD f "steps") else none) with
      | some ss =>
        rw [hbr] at hbranch hsteps
        simp only [] at hbranch hsteps ⊢
        simp only [Bool.and_eq_true, decide_eq_true_eq] at hbranch
        obtain ⟨hlen, hall⟩ := hbranch
        have htake : ss.take 2 = ss := List.take_of_length_le hlen
        have hmap : ss.map normalizeStep = ss := by
          have hcg : ss.map normalizeStep = ss.map id := by
            apply List.map_congr_left
            intro x hx
            show normalizeStep x = x
            have hsn := List.all_eq_true.mp hall x hx
            have hne := List.all_eq_true.mp hsteps x hx
            cases x with
            | vObj sf =>
              unfold stepNormalized at hsn
              simp only [] at hsn hne
              cases hst : objGet sf "type" with
              | none => rw [hst] at hsn; cases hsn
              | some sv =>
                cases sv with
                | vStr sT =>
                  rw [hst] at hsn hne
                  simp only [Bool.and_eq_true, decide_eq_true_eq] at hsn
                  simp only [decide_eq_true_eq] at hne
                  exact step_fixed sf sT hst hsn.1 hsn.2 hne
                | vUndef => rw [hst] at hsn; cases hsn
                | vNull => rw [hst] at hsn; cases hsn
                | vBool b => rw [hst] at hsn; cases hsn
                | vNum m => rw [hst] at hsn; cases hsn
                | vArr xs => rw [hst] at hsn; cases hsn
                | vObj fs2 => rw [hst] at hsn; cases hsn
            | vUndef => cases hsn
            | vNull => cases hsn
            | vBool b => cases hsn
            | vNum m => cases hsn
            | vStr s2 => cases hsn
            | vArr xs => cases hsn
          rw [hcg, List.map_id]
        rw [htake, hmap]
        -- `steps` is already stored as exactly this array
        have hgetst : objGet f "steps" = some (vArr ss) := by
          by_cases hT : T = "DOS_OPERACIONES"
          · rw [if_pos hT] at hbr
            cases hgs : objGet f "steps" with
            | none =>
              exfalso
              unfold objGetD at hbr
              rw [hgs] at hbr
              simp [asArr] at hbr
            | some sv =>
              unfold objGetD at hbr
              rw [hgs] at hbr
              cases sv <;> simp [asArr] at hbr
              · rw [hbr]
          · rw [if_neg hT] at hbr; cases hbr
        rw [objSet_of_objGet_eq _ _ _ hgetst]
      | none =>
        rw [hbr] at hbranch
        rw [tail_fixed f T hbranch]
    | vUndef => rw [hty] at htym; cases htym
    | vNull => rw [hty] at htym; cases htym
    | vBool b => rw [hty] at htym; cases htym
    | vNum m => rw [hty] at htym; cases htym
    | vArr xs => rw [hty] at htym; cases htym
    | vObj fs => rw [hty] at htym; cases htym

/-! ### Claim theorems: C1, C2, C7 -/

theorem normalizeProblem_isObj (p g t : JSVal) (now : ℚ) (i : String) :
    ∃ f, normalizeProblem p g t now i = vObj f := by
  unfold normalizeProblem
  cases (if headT p g t now i = "DOS_OPERACIONES"
         then asArr (objGetD (headO4 p g t now i) "steps") else none) with
  | some ss => exact ⟨_, rfl⟩
  | none => exact ⟨_, rfl⟩

theorem typeKeys_ne_dos (T : String) (ks : String × String × String)
    (hks : typeKeys T = some ks) : T ≠ "DOS_OPERACIONES" := by
  intro h
  rw [h] at hks
  simp [typeKeys] at hks

theorem recNormalized_block (f : Obj) (T : String)
    (hrn : recNormalized (vObj f) = true)
    (hty : objGet f "type" = some (vStr T))
    (ks : String × String × String) (hks : typeKeys T = some ks) :
    blockNormalized f T = true := by
  unfold recNormalized at hrn
  simp only [Bool.and_eq_true] at hrn
  obtain ⟨_, htym⟩ := hrn
  rw [hty] at htym
  simp only [Bool.and_eq_true, decide_eq_true_eq] at htym
  obtain ⟨_, hbranch⟩ := htym
  rw [if_neg (typeKeys_ne_dos T ks hks)] at hbranch
  exact hbranch

theorem blockNormalized_elim (f : Obj) (T : String)
    (hbl : blockNormalized f T = true)
    (ks : String × String × String) (hks : typeKeys T = some ks) :
    (∃ w1 w2 w3,
       objGet f "data"
         = some (vObj [(ks.1, vStr w1), (ks.2.1, vStr w2), (ks.2.2, vStr w3)]) ∧
       goodVal w1 = true ∧ goodVal w2 = true ∧ goodVal w3 = true) ∧
    (∃ a, objGet f "answer" = some (vStr a) ∧ goodVal a = true) := by
  simp only [blockNormalized, Bool.and_eq_true] at hbl
  obtain ⟨⟨⟨hdata, _⟩, _⟩, hans⟩ := hbl
  constructor
  · rw [hks] at hdata
    cases hd : objGet f "data" with
    | none => rw [hd] at hdata; cases hdata
    | some d =>
      rw [hd] at hdata
      obtain ⟨w1, w2, w3, rfl, h1, h2, h3⟩ := shapedData_elim d ks hdata
      exact ⟨w1, w2, w3, rfl, h1, h2, h3⟩
  · cases ha : objGet f "answer" with
    | none => rw [ha] at hans; cases hans
    | some a =>
      rw [ha] at hans
      cases a with
      | vStr w => exact ⟨w, rfl, hans⟩
      | vUndef => cases hans
      | vNull => cases hans
      | vBool b => cases hans
      | vNum m => cases hans
      | vArr xs => cases hans
      | vObj fs => cases hans

/-- C1 (amended): `normalizeProblem` is total (the embedding is a total
function), and whenever the resulting record's `type` is one of the four
table types, its `data` is an object holding exactly that type's key
triple in table order and every `data` value — as well as the `answer` —
is a sentinel (`"?"`/`"RESULTADO_ANTERIOR"`) or a string drawn only from
the characters `0-9 . - ?` (possibly empty or otherwise not a well-formed
decimal numeral; that is the part of the original claim that fails). -/
theorem normalizeProblem_invariants (p g t : JSVal) (now : ℚ) (i : String)
    (hi : i ≠ "") (hn : now ≠ 0)
    (T : String) (ks : String × String × String)
    (hT : objGet (recFields (normalizeProblem p g t now i)) "type" = some (vStr T))
    (hks : typeKeys T = some ks) :
    (∃ w1 w2 w3,
       objGet (recFields (normalizeProblem p g t now i)) "data"
         = some (vObj [(ks.1, vStr w1), (ks.2.1, vStr w2), (ks.2.2, vStr w3)]) ∧
       goodVal w1 = true ∧ goodVal w2 = true ∧ goodVal w3 = true) ∧
    (∃ a, objGet (recFields (normalizeProblem p g t now i)) "answer"
       = some (vStr a) ∧ goodVal a = true) := by
  have hA := normalizeProblem_normalized p g t now i hi hn
  obtain ⟨f, hf⟩ := normalizeProblem_isObj p g t now i
  rw [hf] at hA hT ⊢
  exact blockNormalized_elim f T (recNormalized_block f T hA hT ks hks) ks hks

/-- Witness for C1 at the empty input object with context
`\x7bgrade: 3, type: "PPT"\x7d`. -/
theorem normalizeProblem_invariants_witness :
    (∃ w1 w2 w3,
       objGet (recFields (normalizeProblem (vObj []) (vNum (num 3)) (vStr "PPT") 1 "a"))
         "data" = some (vObj [("p1", vStr w1), ("p2", vStr w2), ("t", vStr w3)]) ∧
       goodVal w1 = true ∧ goodVal w2 = true ∧ goodVal w3 = true) ∧
    (∃ a, objGet (recFields (normalizeProblem (vObj []) (vNum (num 3)) (vStr "PPT") 1 "a"))
       "answer" = some (vStr a) ∧ goodVal a = true) :=
  normalizeProblem_invariants (vObj []) (vNum (num 3)) (vStr "PPT") 1 "a"
    (by decide) (by decide) "PPT" ("p1", "p2", "t") (by decide) (by decide)

/-- Spec-side notion of a decimal numeric string: optional minus sign,
at least one digit, optional fractional part. -/
def isDecimalNumeric (s : String) : Bool :=
  match (match s.toList with
         | '-' :: rest => rest
         | cs => cs) with
  | [] => false
  | cs =>
    match parseDigitsRun cs with
    | some (_, _, []) => true
    | some (_, _, '.' :: rest) =>
      (match parseDigitsRun rest with
       | some (_, _, []) => true
       | _ => false)
    | _ => false

/-- C1 counterexample: normalizing the empty object with context
`\x7bgrade: 3, type: "PPT"\x7d` puts the empty string into `data.p1`
and `data.p2`, and the empty string is neither a decimal numeric string
nor one of the two sentinels. -/
theorem normalizeProblem_invariants_counterexample :
    objGet (recFields (normalizeProblem (vObj []) (vNum (num 3)) (vStr "PPT") 1 "a"))
      "data" = some (vObj [("p1", vStr ""), ("p2", vStr ""), ("t", vStr "?")]) ∧
    isDecimalNumeric "" = false ∧ ("" : String) ≠ "?" ∧
    ("" : String) ≠ "RESULTADO_ANTERIOR" :=
  ⟨by decide, by decide, by decide, by decide⟩

/-- C2 (amended): when the resulting type is `DOS_OPERACIONES` and the
input carries a `steps` array, the output's `steps` has length at most 2;
however normalization never deletes or creates a top-level `data` field —
the output's `data` is exactly the input's (so it is absent only when
absent from the input). -/
theorem normalizeProblem_dos_operaciones (p g t : JSVal) (now : ℚ) (i : String)
    (ss : List JSVal)
    (hT : resultType p t = "DOS_OPERACIONES")
    (hS : objGetD (spread p) "steps" = vArr ss) :
    (∃ ss', objGet (recFields (normalizeProblem p g t now i)) "steps"
        = some (vArr ss') ∧ ss'.length ≤ 2) ∧
    objGet (recFields (normalizeProblem p g t now i)) "data"
      = objGet (spread p) "data" := by
  have hhT : headT p g t now i = "DOS_OPERACIONES" := by
    rw [headT_eq_resultType]; exact hT
  have hgs : objGet (spread p) "steps" = some (vArr ss) := by
    cases hgs0 : objGet (spread p) "steps" with
    | none =>
      exfalso
      unfold objGetD at hS
      rw [hgs0] at hS
      exact JSVal.noConfusion hS
    | some v =>
      unfold objGetD at hS
      rw [hgs0] at hS
      simp only [Option.getD_some] at hS
      rw [hS]
  have hs4 : objGet (headO4 p g t now i) "steps" = some (vArr ss) := by
    rw [headO4_get_ne p g t now i "steps" (by decide) (by decide) (by decide) (by decide)]
    exact hgs
  have hbr : (if headT p g t now i = "DOS_OPERACIONES"
      then asArr (objGetD (headO4 p g t now i) "steps") else none)
      = some ss := by
    rw [if_pos hhT]
    unfold objGetD
    rw [hs4]
    rfl
  unfold normalizeProblem
  rw [hbr]
  simp only [recFields]
  refine ⟨⟨(ss.take 2).map normalizeStep, objGet_objSet_self _ _ _, ?_⟩, ?_⟩
  · simp [List.length_map, List.length_take]
  · rw [objGet_objSet_ne _ _ _ _ (by decide)]
    exact headO4_get_ne p g t now i "data" (by decide) (by decide) (by decide) (by decide)

/-- Witness for C2: a `DOS_OPERACIONES` request with a three-entry steps
array is truncated to two steps and no `data` field appears. -/
theorem normalizeProblem_dos_operaciones_witness :
    (∃ ss', objGet (recFields (normalizeProblem
        (vObj [("steps", vArr [vObj [], vObj [], vObj []])])
        (vNum (num 2)) (vStr "DOS_OPERACIONES") 1 "a")) "steps"
        = some (vArr ss') ∧ ss'.length ≤ 2) ∧
    objGet (recFields (normalizeProblem
        (vObj [("steps", vArr [vObj [], vObj [], vObj []])])
        (vNum (num 2)) (vStr "DOS_OPERACIONES") 1 "a")) "data"
      = objGet (spread (vObj [("steps", vArr [vObj [], vObj [], vObj []])])) "data" :=
  normalizeProblem_dos_operaciones
    (vObj [("steps", vArr [vObj [], vObj [], vObj []])])
    (vNum (num 2)) (vStr "DOS_OPERACIONES") 1 "a"
    [vObj [], vObj [], vObj []] (by decide) (by decide)

/-- C2 counterexample: an input with a `data` object but no `steps`,
normalized under request type `DOS_OPERACIONES`, keeps its top-level
`data` field (the claim says the record never has one) and carries no
`steps` sequence at all. -/
theorem normalizeProblem_dos_operaciones_counterexample :
    objGet (recFields (normalizeProblem (vObj [("data", vObj [("x", vNum (num 1))])])
      (vNum (num 1)) (vStr "DOS_OPERACIONES") 1 "a")) "data"
      = some (vObj [("x", vNum (num 1))]) ∧
    objGet (recFields (normalizeProblem (vObj [("data", vObj [("x", vNum (num 1))])])
      (vNum (num 1)) (vStr "DOS_OPERACIONES") 1 "a")) "steps" = none :=
  ⟨by decide, by decide⟩

/-- C7 (amended): `normalizeProblem` is idempotent — renormalizing an
already-normalized record (with any context, clock or generated id for
the second run) returns it unchanged — provided the first run's generated
id is non-empty and clock non-zero (as `genId`/`Date.now` guarantee) and
the normalized record's `type` (and each step's `type`) is a non-empty
string.  The non-emptiness proviso is what the counterexample forces:
a truthy input `type` that stringifies to `""` (e.g. `type: []`) yields
an empty type that the second run re-defaults. -/
theorem normalizeProblem_idempotent (p g t : JSVal) (now1 : ℚ) (i1 : String)
    (now2 : ℚ) (i2 : String)
    (hi : i1 ≠ "") (hn : now1 ≠ 0)
    (htn : typesNonempty (normalizeProblem p g t now1 i1) = true) :
    normalizeProblem (normalizeProblem p g t now1 i1) g t now2 i2
      = normalizeProblem p g t now1 i1 := by
  have hA := normalizeProblem_normalized p g t now1 i1 hi hn
  obtain ⟨f, hf⟩ := normalizeProblem_isObj p g t now1 i1
  rw [hf] at hA htn ⊢
  exact normalizeProblem_fixed f hA htn g t now2 i2

/-- Witness for C7 at the empty input object. -/
theorem normalizeProblem_idempotent_witness :
    normalizeProblem (normalizeProblem (vObj []) (vNum (num 3)) (vStr "PPT") 1 "a")
      (vNum (num 3)) (vStr "PPT") 2 "b"
      = normalizeProblem (vObj []) (vNum (num 3)) (vStr "PPT") 1 "a" :=
  normalizeProblem_idempotent (vObj []) (vNum (num 3)) (vStr "PPT") 1 "a" 2 "b"
    (by decide) (by decide) (by decide)

/-- C7 counterexample: for the input `\x7btype: []\x7d` (a truthy `type`
that stringifies to the empty string) the first normalization produces
`type: ""` and no `data`; the second normalization — with identical
context, clock and id — re-defaults the type to `"PPT"` and reshapes
`data`, so the record changes even though `id`/`createdAt` are unchanged. -/
theorem normalizeProblem_idempotent_counterexample :
    normalizeProblem (normalizeProblem (vObj [("type", vArr [])])
        (vNum (num 1)) (vStr "PPT") 1 "a") (vNum (num 1)) (vStr "PPT") 1 "a"
      ≠ normalizeProblem (vObj [("type", vArr [])]) (vNum (num 1)) (vStr "PPT") 1 "a" := by
  decide

/-! ### JSON serialization (`JSON.stringify`), compact and 2-space-indent.

The model covers the values these handlers serialize: no `undefined`
(`JSON.stringify` would drop object entries / write `null` in arrays;
every serialization theorem below is stated for undefined-free values),
and numbers with terminating decimal expansions (every JS double). -/

def jsonHexDigit (n : Nat) : Char :=
  if n < 10 then Char.ofNat (48 + n) else Char.ofNat (97 + n - 10)

/-- The escaping `JSON.stringify` applies inside string literals. -/
def escapeChar (c : Char) : List Char :=
  if c = '"' then ['\\', '"']
  else if c = '\\' then ['\\', '\\']
  else if c = '\n' then ['\\', 'n']
  else if c = '\r' then ['\\', 'r']
  else if c = '\t' then ['\\', 't']
  else if c.toNat = 8 then ['\\', 'b']
  else if c.toNat = 12 then ['\\', 'f']
  else if c.toNat < 32 then
    ['\\', 'u', '0', '0', jsonHexDigit (c.toNat / 16), jsonHexDigit (c.toNat % 16)]
  else [c]

def escapeList (cs : List Char) : List Char :=
  cs.foldr (fun c acc => escapeChar c ++ acc) []

/-- A JSON string literal. -/
def quoteStr (s : String) : List Char := '"' :: (escapeList s.toList ++ ['"'])

/-- JSON number rendering (`NaN` prints as `null` in JSON). -/
def jsonNumChars : JSNum → List Char
  | nan => "null".toList
  | num q => (numToString (num q)).toList

mutual

/-- Compact `JSON.stringify`. -/
def stringifyV : JSVal → List Char
  | vUndef => "null".toList
  | vNull => "null".toList
  | vBool b => if b then "true".toList else "false".toList
  | vNum n => jsonNumChars n
  | vStr s => quoteStr s
  | vArr xs => '[' :: arrBody xs
  | vObj fs => '\x7b' :: objBody fs

def arrBody : List JSVal → List Char
  | [] => [']']
  | [x] => stringifyV x ++ [']']
  | x :: y :: xs => stringifyV x ++ ',' :: arrBody (y :: xs)

def objBody : List (String × JSVal) → List Char
  | [] => ['\x7d']
  | [(k, v)] => quoteStr k ++ ':' :: stringifyV v ++ ['\x7d']
  | (k, v) :: f :: fs => quoteStr k ++ ':' :: stringifyV v ++ ',' :: objBody (f :: fs)

end

def indentChars (d : Nat) : List Char := List.replicate (2 * d) ' '

mutual

/-- `JSON.stringify(v, null, 2)` at nesting depth `d`. -/
def pStr : Nat → JSVal → List Char
  | _, vUndef => "null".toList
  | _, vNull => "null".toList
  | _, vBool b => if b then "true".toList else "false".toList
  | _, vNum n => jsonNumChars n
  | _, vStr s => quoteStr s
  | _, vArr [] => "[]".toList
  | d, vArr (x :: xs) =>
    '[' :: '\n' :: (pElems d x xs ++ '\n' :: (indentChars d ++ [']']))
  | _, vObj [] => "\x7b\x7d".toList
  | d, vObj (f :: fs) =>
    '\x7b' :: '\n' :: (pFields d f fs ++ '\n' :: (indentChars d ++ ['\x7d']))
termination_by _ v => sizeOf v

def pElems : Nat → JSVal → List JSVal → List Char
  | d, x, [] => indentChars (d + 1) ++ pStr (d + 1) x
  | d, x, y :: ys =>
    indentChars (d + 1) ++ pStr (d + 1) x ++ ',' :: '\n' :: pElems d y ys
termination_by _ x xs => 1 + sizeOf x + sizeOf xs

def pFields : Nat → String × JSVal → List (String × JSVal) → List Char
  | d, (k, v), [] =>
    indentChars (d + 1) ++ quoteStr k ++ ':' :: ' ' :: pStr (d + 1) v
  | d, (k, v), f :: fs =>
    indentChars (d + 1) ++ quoteStr k ++ ':' :: ' ' :: pStr (d + 1) v ++
      ',' :: '\n' :: pFields d f fs
termination_by _ f fs => 1 + sizeOf f + sizeOf fs

end

/-! ### The persistence endpoint (src/api/problems.js) -/

/-- Property read `v?.k`. -/
def jsGetV : JSVal → String → JSVal
  | vObj f, k => objGetD f k
  | _, _ => vUndef

def hasSubstr : List Char → List Char → Bool
  | [], pat => pat.isEmpty
  | c :: rest, pat => pat.isPrefixOf (c :: rest) || hasSubstr rest pat

/-- Case-insensitive substring test (`/pat/i.test(hay)` for a literal
pattern). -/
def containsCI (hay pat : String) : Bool :=
  hasSubstr (hay.toList.map Char.toLower) (pat.toList.map Char.toLower)

/-- An HTTP response: status plus the JSON object passed to
`JSON.stringify` as the body. -/
structure Resp where
  status : Nat
  body : Obj
deriving Repr, DecidableEq

/-- Outcome of `getFile`: `\x7bstatus: 404\x7d`, `\x7bstatus, error\x7d`, or
`\x7bstatus: 200, content, sha\x7d`. -/
inductive GetFileRes where
  | notFound : GetFileRes
  | errRes : Nat → String → GetFileRes
  | okRes : String → String → GetFileRes
deriving Repr, DecidableEq

/-- Outcome of `putFile`: `\x7bstatus, error\x7d` on `!res.ok`, otherwise
`\x7bstatus, sha: json.content?.sha\x7d`. -/
inductive PutFileRes where
  | errRes : Nat → String → PutFileRes
  | okRes : JSVal → PutFileRes
deriving Repr, DecidableEq

/-- One write request issued against the hosting API: the file content
sent and the `sha` field included in the body (present only when truthy). -/
structure WriteReq where
  content : String
  sha : Option JSVal
deriving Repr, DecidableEq

/-- `Array.isArray(body?.problems) ? body.problems : []`. -/
def postProblems (body : JSVal) : JSVal :=
  match jsGetV body "problems" with
  | vArr xs => vArr xs
  | _ => vArr []

/-- `body?.sha || undefined`, then `if (sha) body.sha = sha` in `putFile`. -/
def postSha (body : JSVal) : Option JSVal :=
  if truthy (jsGetV body "sha") then some (jsGetV body "sha") else none

/-- The `problems.js` handler. Host effects enter as parameters: `token`
(`process.env.GITHUB_TOKEN`), `getRes` (the `getFile` outcome, GET path),
`contentParse` (the outcome of `JSON.parse(file.content || '[]')`),
`bodyRes` (the outcome of `req.json()`, `none` = it threw), and `putRes`
(the `putFile` outcome, POST path). Returns the response and the list of
write requests issued (the straight-line source performs exactly one
`putFile` call per successful POST dispatch and none elsewhere — the
handler never retries). The OPTIONS branch's `'ok'` text body is modelled
as an empty object. The commit `message` string is not modelled (no claim
mentions it). -/
def problemsHandler (token : Option String) (method : String)
    (getRes : GetFileRes) (contentParse : Option JSVal)
    (bodyRes : Option JSVal) (putRes : PutFileRes) : Resp × List WriteReq :=
  if method = "OPTIONS" then (⟨200, []⟩, [])
  else
    match token with
    | none => (⟨500, [("error", vStr "Missing GITHUB_TOKEN")]⟩, [])
    | some _ =>
      if method = "GET" then
        match getRes with
        | GetFileRes.notFound =>
          (⟨404, [("problems", vArr []), ("sha", vNull), ("notFound", vBool true)]⟩, [])
        | GetFileRes.errRes st e =>
          (⟨if st = 0 then 500 else st, [("error", vStr e)]⟩, [])
        | GetFileRes.okRes _ sha =>
          let problems := match contentParse with
            | some v => v
            | none => vArr []
          (⟨200, [("problems", problems), ("sha", vStr sha)]⟩, [])
      else if method = "POST" then
        match bodyRes with
        | none => (⟨400, [("error", vStr "Bad request")]⟩, [])
        | some body =>
          let wr : WriteReq := ⟨String.mk (pStr 0 (postProblems body)), postSha body⟩
          match putRes with
          | PutFileRes.errRes st e =>
            let st' := if st = 0 then 500 else st
            let conflict := (st' == 409) || (st' == 412) || containsCI e "sha"
            (⟨st', [("error", vStr e), ("conflict", vBool conflict)]⟩, [wr])
          | PutFileRes.okRes sha => (⟨200, [("ok", vBool true), ("sha", sha)]⟩, [wr])
      else (⟨405, [("error", vStr "Method not allowed")]⟩, [])

/-! ### Claim theorems: C3, C5, C9, C10 -/

/-- C3: when `putFile` reports an error (status `st`, error text `e`;
a completed `fetch` never reports status 0), the POST handler responds
with the upstream status, a body carrying the upstream error text and a
`conflict` flag that is true exactly when the status is 409 or 412 or the
error text contains "sha" case-insensitively — and it issues exactly one
write request (it never retries). -/
theorem problemsHandler_put_error (tok : String) (g : GetFileRes)
    (cp : Option JSVal) (body : JSVal) (st : Nat) (e : String)
    (hst : st ≠ 0) :
    (problemsHandler (some tok) "POST" g cp (some body)
        (PutFileRes.errRes st e)).1.status = st ∧
    objGet (problemsHandler (some tok) "POST" g cp (some body)
        (PutFileRes.errRes st e)).1.body "conflict"
      = some (vBool ((st == 409) || (st == 412) || containsCI e "sha")) ∧
    objGet (problemsHandler (some tok) "POST" g cp (some body)
        (PutFileRes.errRes st e)).1.body "error" = some (vStr e) ∧
    (problemsHandler (some tok) "POST" g cp (some body)
        (PutFileRes.errRes st e)).2.length = 1 := by
  unfold problemsHandler
  simp [objGet, hst]

/-- Witness for C3 at a concrete 409 conflict. -/
theorem problemsHandler_put_error_witness :
    (problemsHandler (some "tk") "POST" GetFileRes.notFound none
        (some (vObj [])) (PutFileRes.errRes 409 "sha mismatch")).1.status = 409 ∧
    objGet (problemsHandler (some "tk") "POST" GetFileRes.notFound none
        (some (vObj [])) (PutFileRes.errRes 409 "sha mismatch")).1.body "conflict"
      = some (vBool ((409 == 409) || (409 == 412) || containsCI "sha mismatch" "sha")) ∧
    objGet (problemsHandler (some "tk") "POST" GetFileRes.notFound none
        (some (vObj [])) (PutFileRes.errRes 409 "sha mismatch")).1.body "error"
      = some (vStr "sha mismatch") ∧
    (problemsHandler (some "tk") "POST" GetFileRes.notFound none
        (some (vObj [])) (PutFileRes.errRes 409 "sha mismatch")).2.length = 1 :=
  problemsHandler_put_error "tk" GetFileRes.notFound none (vObj []) 409
    "sha mismatch" (by decide)

/-- C5: with the server credential configured, a POST whose body fails to
parse (`req.json()` throws) is answered with status 400 and body
`\x7berror: "Bad request"\x7d`, and no write is attempted. -/
theorem problemsHandler_bad_request (tok : String) (g : GetFileRes)
    (cp : Option JSVal) (putRes : PutFileRes) :
    problemsHandler (some tok) "POST" g cp none putRes
      = (⟨400, [("error", vStr "Bad request")]⟩, []) := by
  unfold problemsHandler
  simp

/-- C9: when the remote read succeeds (status 200) but the fetched
content fails to parse as JSON (`contentParse = none`), the GET handler
responds 200 with an empty `problems` collection and the file's `sha` —
the read degrades instead of erroring. -/
theorem problemsHandler_get_corrupt (tok content sha : String)
    (bodyRes : Option JSVal) (putRes : PutFileRes) :
    problemsHandler (some tok) "GET" (GetFileRes.okRes content sha) none
        bodyRes putRes
      = (⟨200, [("problems", vArr []), ("sha", vStr sha)]⟩, []) := by
  unfold problemsHandler
  simp

theorem postProblems_of_nonarray (body : JSVal)
    (hna : asArr (jsGetV body "problems") = none) :
    postProblems body = vArr [] := by
  unfold postProblems
  cases h : jsGetV body "problems" with
  | vArr xs => rw [h] at hna; simp [asArr] at hna
  | vUndef => rfl
  | vNull => rfl
  | vBool b => rfl
  | vNum n => rfl
  | vStr s => rfl
  | vObj fs => rfl

/-- C10: a parsed POST body whose `problems` is not an array (or absent)
is not rejected: `problems` is coerced to `[]`, the write is performed
with content `"[]"` (replacing the whole remote collection), and a
successful write is answered 200 with `\x7bok: true, sha\x7d`. -/
theorem problemsHandler_post_nonarray (tok : String) (g : GetFileRes)
    (cp : Option JSVal) (body : JSVal) (sha2 : JSVal)
    (hna : asArr (jsGetV body "problems") = none) :
    problemsHandler (some tok) "POST" g cp (some body) (PutFileRes.okRes sha2)
      = (⟨200, [("ok", vBool true), ("sha", sha2)]⟩,
         [⟨"[]", postSha body⟩]) := by
  unfold problemsHandler
  simp [postProblems_of_nonarray body hna]
  rw [show pStr 0 (vArr []) = "[]".toList by simp [pStr]]
  rfl

/-- Witness for C10: `problems: 5` is coerced to the empty collection. -/
theorem problemsHandler_post_nonarray_witness :
    problemsHandler (some "tk") "POST" GetFileRes.notFound none
        (some (vObj [("problems", vNum (num 5))])) (PutFileRes.okRes (vStr "s2"))
      = (⟨200, [("ok", vBool true), ("sha", vStr "s2")]⟩,
         [⟨"[]", postSha (vObj [("problems", vNum (num 5))])⟩]) :=
  problemsHandler_post_nonarray "tk" GetFileRes.notFound none
    (vObj [("problems", vNum (num 5))]) (vStr "s2") (by decide)

/-! ### The generation endpoint handler (src/unnamed/part_001 lines
178-192; the same logic appears in src/api/generate-problem.js). -/

/-- `Math.max(1, Math.min(6, Number(body?.grade || 1)))`. -/
def effGrade (body : JSVal) : JSNum :=
  jsMax (num 1) (jsMin (num 6) (jsToNumber (jsOrV (jsGetV body "grade") (vNum (num 1)))))

/-- `Math.max(1, Math.min(10, Number(body?.count || 1)))`. -/
def effCount (body : JSVal) : JSNum :=
  jsMax (num 1) (jsMin (num 10) (jsToNumber (jsOrV (jsGetV body "count") (vNum (num 1)))))

/-- `String(body?.type || 'PPT').toUpperCase()`. -/
def effType (body : JSVal) : String :=
  toUpperStr (jsToString (jsOrV (jsGetV body "type") (vStr "PPT")))

/-- `buildPrompt`'s own clamp:
`Math.max(1, Math.min(10, Number(count || 1)))`. -/
def buildPromptN (count : JSVal) : JSNum :=
  jsMax (num 1) (jsMin (num 10) (jsToNumber (jsOrV count (vNum (num 1)))))

/-- JS ToIntegerOrInfinity (truncation; NaN to 0) as used by `slice`. -/
def toIntOrZero : JSNum → Int
  | nan => 0
  | num q => if 0 ≤ q then ⌊q⌋ else ⌈q⌉

/-- `xs.slice(0, n)`. -/
def jsSliceTake (xs : List JSVal) (n : JSNum) : List JSVal :=
  xs.take (toIntOrZero n).toNat

/-- The handler's
`(result.problems || []).slice(0, count).map(p => normalizeProblem(p, \x7bgrade, type\x7d))`
— each call of the mapped function draws its own `Date.now()`/`genId()`,
modelled by the per-index parameters. -/
def genProblems (body : JSVal) (ps : List JSVal) (now : ℚ)
    (ids : Nat → String) : List JSVal :=
  (jsSliceTake ps (effCount body)).mapIdx
    (fun i p => normalizeProblem p (vNum (effGrade body)) (vStr (effType body)) now (ids i))

/-- C6 (amended): whenever `Number(body?.grade || 1)` and
`Number(body?.count || 1)` are not NaN — i.e. the fields are numbers,
numeric strings, or absent/falsy — the effective grade is clamped into
the interval `[1, 6]` and the effective count into `[1, 10]`, the prompt
builder's own clamp reproduces the handler's count exactly, the response's
`problems` array is no longer than the clamped count, and an absent field
defaults to 1. The NaN proviso is what the counterexample forces: a
truthy non-numeric `grade` (e.g. `"abc"`) makes `Math.max`/`Math.min`
propagate NaN instead of clamping. -/
theorem generate_clamps (body : JSVal)
    (hg : jsToNumber (jsOrV (jsGetV body "grade") (vNum (num 1))) ≠ nan)
    (hc : jsToNumber (jsOrV (jsGetV body "count") (vNum (num 1))) ≠ nan) :
    (∃ qg : ℚ, effGrade body = num qg ∧ 1 ≤ qg ∧ qg ≤ 6) ∧
    (∃ qc : ℚ, effCount body = num qc ∧ 1 ≤ qc ∧ qc ≤ 10 ∧
       buildPromptN (vNum (effCount body)) = effCount body ∧
       ∀ (ps : List JSVal) (now : ℚ) (ids : Nat → String),
         ((genProblems body ps now ids).length : ℚ) ≤ qc) ∧
    effGrade (vObj []) = num 1 ∧ effCount (vObj []) = num 1 := by
  refine ⟨?_, ?_, by decide, by decide⟩
  · cases hgn : jsToNumber (jsOrV (jsGetV body "grade") (vNum (num 1))) with
    | nan => exact absurd hgn hg
    | num q =>
      refine ⟨max 1 (min 6 q), ?_, le_max_left _ _, ?_⟩
      · unfold effGrade
        rw [hgn]
        rfl
      · exact max_le (by norm_num) (min_le_left _ _)
  · cases hcn : jsToNumber (jsOrV (jsGetV body "count") (vNum (num 1))) with
    | nan => exact absurd hcn hc
    | num q =>
      have hceq : effCount body = num (max 1 (min 10 q)) := by
        unfold effCount
        rw [hcn]
        rfl
      refine ⟨max 1 (min 10 q), hceq, le_max_left _ _,
              max_le (by norm_num) (min_le_left _ _), ?_, ?_⟩
      · have hne : max 1 (min 10 q) ≠ 0 := by
          have : (1 : ℚ) ≤ max 1 (min 10 q) := le_max_left _ _
          intro h
          rw [h] at this
          norm_num at this
        unfold buildPromptN
        rw [hceq]
        simp only [jsOrV, truthy, jsToNumber]
        rw [if_pos (by simpa using hne)]
        simp only [jsToNumber]
        have h1 : (1 : ℚ) ≤ max 1 (min 10 q) := le_max_left _ _
        have h10 : max 1 (min 10 q) ≤ 10 := max_le (by norm_num) (min_le_left _ _)
        show num (max 1 (min 10 (max 1 (min 10 q)))) = num (max 1 (min 10 q))
        rw [min_eq_right h10, max_eq_right h1]
      · intro ps now ids
        have h1 : (1 : ℚ) ≤ max 1 (min 10 q) := le_max_left _ _
        have hlen2 : (genProblems body ps now ids).length
            ≤ (toIntOrZero (num (max 1 (min 10 q)))).toNat := by
          unfold genProblems jsSliceTake
          rw [hceq, List.length_mapIdx]
          exact List.length_take_le _ _
        calc ((genProblems body ps now ids).length : ℚ)
            ≤ ((toIntOrZero (num (max 1 (min 10 q)))).toNat : ℚ) := by
              exact_mod_cast hlen2
          _ ≤ max 1 (min 10 q) := by
              unfold toIntOrZero
              simp only []
              rw [if_pos (le_trans zero_le_one h1)]
              have hfl : (0 : ℤ) ≤ ⌊max 1 (min 10 q)⌋ := by
                rw [Int.le_floor]
                exact_mod_cast le_trans zero_le_one h1
              calc ((⌊max 1 (min 10 q)⌋.toNat : ℕ) : ℚ)
                  = ((⌊max 1 (min 10 q)⌋ : ℤ) : ℚ) := by
                    exact_mod_cast Int.toNat_of_nonneg hfl
                _ ≤ max 1 (min 10 q) := Int.floor_le _

/-- Witness for C6 at `\x7bgrade: 4, count: 4\x7d`. -/
theorem generate_clamps_witness :
    (∃ qg : ℚ, effGrade (vObj [("grade", vNum (num 4)), ("count", vNum (num 4))])
       = num qg ∧ 1 ≤ qg ∧ qg ≤ 6) ∧
    (∃ qc : ℚ, effCount (vObj [("grade", vNum (num 4)), ("count", vNum (num 4))])
       = num qc ∧ 1 ≤ qc ∧ qc ≤ 10 ∧
       buildPromptN (vNum (effCount (vObj [("grade", vNum (num 4)),
         ("count", vNum (num 4))])))
         = effCount (vObj [("grade", vNum (num 4)), ("count", vNum (num 4))]) ∧
       ∀ (ps : List JSVal) (now : ℚ) (ids : Nat → String),
         ((genProblems (vObj [("grade", vNum (num 4)), ("count", vNum (num 4))])
            ps now ids).length : ℚ) ≤ qc) ∧
    effGrade (vObj []) = num 1 ∧ effCount (vObj []) = num 1 :=
  generate_clamps (vObj [("grade", vNum (num 4)), ("count", vNum (num 4))])
    (by decide) (by decide)

/-- C6 counterexample: for the body `\x7bgrade: "abc"\x7d` the effective
grade is NaN — `"abc"` is truthy, `Number("abc")` is NaN, and
`Math.max(1, Math.min(6, NaN))` is NaN — so it is not clamped into 1..6. -/
theorem generate_clamps_counterexample :
    effGrade (vObj [("grade", vStr "abc")]) = nan ∧
    ¬ ∃ qg : ℚ, effGrade (vObj [("grade", vStr "abc")]) = num qg ∧
        1 ≤ qg ∧ qg ≤ 6 := by
  refine ⟨by decide, ?_⟩
  rintro ⟨q, hq, -, -⟩
  rw [show effGrade (vObj [("grade", vStr "abc")]) = nan from by decide] at hq
  exact JSNum.noConfusion hq

/-! ### A JSON parser (the model of `JSON.parse`)

Strict JSON without inter-token whitespace — exactly the grammar
`JSON.parse` accepts on the texts the theorems below feed it (canonical
serializer output and the concrete counterexample texts); it rejects
trailing garbage like `JSON.parse` does. -/

def hexVal (c : Char) : Option Nat :=
  if 48 ≤ c.toNat ∧ c.toNat ≤ 57 then some (c.toNat - 48)
  else if 97 ≤ c.toNat ∧ c.toNat ≤ 102 then some (c.toNat - 87)
  else if 65 ≤ c.toNat ∧ c.toNat ≤ 70 then some (c.toNat - 55)
  else none

/-- Decode one escape: the character after the backslash plus the rest. -/
def unescape (e : Char) (rest : List Char) : Option (Char × List Char) :=
  if e = '"' then some ('"', rest)
  else if e = '\\' then some ('\\', rest)
  else if e = '/' then some ('/', rest)
  else if e = 'n' then some ('\n', rest)
  else if e = 'r' then some ('\r', rest)
  else if e = 't' then some ('\t', rest)
  else if e = 'b' then some (Char.ofNat 8, rest)
  else if e = 'f' then some (Char.ofNat 12, rest)
  else if e = 'u' then
    match rest with
    | h1 :: h2 :: h3 :: h4 :: rest4 =>
      match hexVal h1, hexVal h2, hexVal h3, hexVal h4 with
      | some a, some b, some c, some d =>
        some (Char.ofNat (((a * 16 + b) * 16 + c) * 16 + d), rest4)
      | _, _, _, _ => none
    | _ => none
  else none

/-- Body of a JSON string literal, after the opening quote. -/
def parseStringBody : Nat → List Char → Option (List Char × List Char)
  | 0, _ => none
  | _ + 1, [] => none
  | fuel + 1, c :: rest =>
    if c = '"' then some ([], rest)
    else if c = '\\' then
      match rest with
      | [] => none
      | e :: rest2 =>
        match unescape e rest2 with
        | some (uc, rest3) =>
          (parseStringBody fuel rest3).map (fun pr => (uc :: pr.1, pr.2))
        | none => none
    else (parseStringBody fuel rest).map (fun pr => (c :: pr.1, pr.2))

/-- Nonnegative JSON number: digits with optional fraction. -/
def parseNumAux (cs : List Char) : Option (ℚ × List Char) :=
  match parseDigitsRun cs with
  | some (iv, _, rest) =>
    (match rest with
     | c :: rest2 =>
       if c = '.' then
         match parseDigitsRun rest2 with
         | some (fv, flen, rest3) => some ((iv : ℚ) + (fv : ℚ) / 10 ^ flen, rest3)
         | none => none
       else some ((iv : ℚ), c :: rest2)
     | [] => some ((iv : ℚ), []))
  | none => none

def parseNumber (cs : List Char) : Option (JSVal × List Char) :=
  match cs with
  | c :: rest =>
    if c = '-' then (parseNumAux rest).map (fun pr => (vNum (num (-pr.1)), pr.2))
    else (parseNumAux (c :: rest)).map (fun pr => (vNum (num pr.1), pr.2))
  | [] => none

def startsNumber : List Char → Bool
  | [] => false
  | c :: _ => c.isDigit || c = '-'

mutual

def parseValue : Nat → List Char → Option (JSVal × List Char)
  | 0, _ => none
  | fuel + 1, cs =>
    if startsNumber cs then parseNumber cs
    else
      match cs with
      | 'n' :: 'u' :: 'l' :: 'l' :: rest => some (vNull, rest)
      | 't' :: 'r' :: 'u' :: 'e' :: rest => some (vBool true, rest)
      | 'f' :: 'a' :: 'l' :: 's' :: 'e' :: rest => some (vBool false, rest)
      | '"' :: rest =>
        (parseStringBody (rest.length + 1) rest).map
          (fun pr => (vStr (String.mk pr.1), pr.2))
      | '[' :: rest =>
        if rest.head? = some ']' then some (vArr [], rest.tail)
        else (parseElems fuel rest).map (fun pr => (vArr pr.1, pr.2))
      | '\x7b' :: rest =>
        if rest.head? = some '\x7d' then some (vObj [], rest.tail)
        else (parseMembers fuel rest).map (fun pr => (vObj pr.1, pr.2))
      | _ => none

def parseElems : Nat → List Char → Option (List JSVal × List Char)
  | 0, _ => none
  | fuel + 1, cs =>
    (parseValue fuel cs).bind (fun pr =>
      if pr.2.head? = some ',' then
        (parseElems fuel pr.2.tail).map (fun qr => (pr.1 :: qr.1, qr.2))
      else if pr.2.head? = some ']' then some ([pr.1], pr.2.tail)
      else none)

def parseMembers : Nat → List Char → Option (List (String × JSVal) × List Char)
  | 0, _ => none
  | fuel + 1, cs =>
    match cs with
    | '"' :: rest =>
      (parseStringBody (rest.length + 1) rest).bind (fun kr =>
        if kr.2.head? = some ':' then
          (parseValue fuel kr.2.tail).bind (fun pr =>
            if pr.2.head? = some ',' then
              (parseMembers fuel pr.2.tail).map
                (fun mr => ((String.mk kr.1, pr.1) :: mr.1, mr.2))
            else if pr.2.head? = some '\x7d' then
              some ([(String.mk kr.1, pr.1)], pr.2.tail)
            else none)
        else none)
    | _ => none

end

/-- `JSON.parse` on a character list: a full-input parse, rejecting
trailing garbage; `none` models a thrown `SyntaxError`. -/
def jsonParseList (cs : List Char) : Option JSVal :=
  match parseValue (cs.length + 1) cs with
  | some (v, []) => some v
  | _ => none

/-! ### The response extractor (`extractProblemsFromText`,
src/unnamed/part_001 lines 84-112) -/

/-- The backtick character. -/
def btick : Char := Char.ofNat 96

/-- The fence delimiter. -/
def fence : List Char := [btick, btick, btick]

/-- `t.indexOf(pat)` for a non-empty pattern. -/
def idxOfSub (pat : List Char) : List Char → Option Nat
  | [] => none
  | c :: rest =>
    if pat.isPrefixOf (c :: rest) then some 0
    else (idxOfSub pat rest).map (· + 1)

/-- `t.lastIndexOf(pat)` for a non-empty pattern. -/
def lastIdxOfSub (pat : List Char) : List Char → Option Nat
  | [] => none
  | c :: rest =>
    match lastIdxOfSub pat rest with
    | some j => some (j + 1)
    | none => if pat.isPrefixOf (c :: rest) then some 0 else none

/-- `t.indexOf(c)`. -/
def idxOfChar (c : Char) : List Char → Option Nat
  | [] => none
  | c' :: rest => if c' = c then some 0 else (idxOfChar c rest).map (· + 1)

/-- `t.lastIndexOf(c)`. -/
def lastIdxOfChar (c : Char) : List Char → Option Nat
  | [] => none
  | c' :: rest =>
    match lastIdxOfChar c rest with
    | some j => some (j + 1)
    | none => if c' = c then some 0 else none

/-- `t.replace(/^json\s*  /i, '')` (strip a leading language tag). -/
def stripJsonTag (cs : List Char) : List Char :=
  match cs with
  | c1 :: c2 :: c3 :: c4 :: rest =>
    if [c1, c2, c3, c4].map Char.toLower = "json".toList then rest.dropWhile isWS
    else cs
  | _ => cs

/-- The fence-handling step: when two fence delimiters are found, slice
to the region between the first and the last, trim, strip the language
tag, trim again. -/
def fenceSlice (t0 : List Char) : List Char :=
  match idxOfSub fence t0, lastIdxOfSub fence t0 with
  | some s, some e =>
    if s < e then
      jsTrimList (stripJsonTag (jsTrimList ((t0.drop (s + 3)).take (e - (s + 3)))))
    else t0
  | _, _ => t0

/-- The bracket-slicing step: slice from the first `[`/`\x7b` to the last
`]`/`\x7d` and trim. -/
def bracketSlice (t1 : List Char) : List Char :=
  let first : Option Nat :=
    match idxOfChar '[' t1, idxOfChar '\x7b' t1 with
    | some a, some b => some (min a b)
    | some a, none => some a
    | none, some b => some b
    | none, none => none
  let last : Option Nat :=
    match lastIdxOfChar ']' t1, lastIdxOfChar '\x7d' t1 with
    | some a, some b => some (max a b)
    | some a, none => some a
    | none, some b => some b
    | none, none => none
  match first, last with
  | some f, some l => if f ≤ l then jsTrimList ((t1.drop f).take (l + 1 - f)) else t1
  | _, _ => t1

/-- `t.replace(/\x60\x60\x60/g, '')`: delete every fence delimiter. -/
def removeFences : List Char → List Char
  | [] => []
  | [c] => [c]
  | [c1, c2] => [c1, c2]
  | c1 :: c2 :: c3 :: rest =>
    if c1 = btick ∧ c2 = btick ∧ c3 = btick then removeFences rest
    else c1 :: removeFences (c2 :: c3 :: rest)

/-- `Array.isArray(parsed) ? parsed : [parsed]`. -/
def wrapArr : JSVal → List JSVal
  | vArr xs => xs
  | v => [v]

/-- `extractProblemsFromText`: trim, slice to the innermost fenced region
(stripping a `json` tag), slice from the first opening to the last closing
bracket, parse; on failure strip stray fences and retry once; wrap a bare
object into a one-element array. `none` models the exception propagating
out when both parses fail. -/
def extractProblemsFromText (text : String) : Option (List JSVal) :=
  let t0 := jsTrimList text.toList
  let t2 := bracketSlice (fenceSlice t0)
  match jsonParseList t2 with
  | some v => some (wrapArr v)
  | none =>
    match jsonParseList (jsTrimList (removeFences t2)) with
    | some v => some (wrapArr v)
    | none => none

/-! ### Round-trip: string escaping -/

theorem charOfNat_self (c : Char) : Char.ofNat c.toNat = c := by
  have hv : c.toNat.isValidChar := c.valid
  apply Char.ext
  rw [Char.ofNat, dif_pos hv]
  apply UInt32.ext
  rfl

theorem hexVal_hexDigit (n : Nat) (h : n < 16) :
    hexVal (jsonHexDigit n) = some n := by
  interval_cases n <;> decide

theorem escapeList_cons (c : Char) (cs : List Char) :
    escapeList (c :: cs) = escapeChar c ++ escapeList cs := rfl

theorem parseStringBody_escape (cs : List Char) :
    ∀ (fuel : Nat) (rest : List Char), cs.length + 1 ≤ fuel →
    parseStringBody fuel (escapeList cs ++ '"' :: rest) = some (cs, rest) := by
  induction cs with
  | nil =>
    intro fuel rest hf
    cases fuel with
    | zero => omega
    | succ f =>
      show parseStringBody (f + 1) ('"' :: rest) = some ([], rest)
      simp [parseStringBody]
  | cons c cs ih =>
    intro fuel rest hf
    cases fuel with
    | zero => simp at hf
    | succ f =>
      have hf2 : cs.length + 1 ≤ f := by
        simp [List.length_cons] at hf
        omega
      rw [escapeList_cons, List.append_assoc]
      by_cases h1 : c = '"'
      · subst h1
        have he : escapeChar '"' = ['\\', '"'] := by decide
        rw [he]
        simp only [List.cons_append, List.nil_append]
        simp [parseStringBody, unescape, ih f rest hf2]
      · by_cases h2 : c = '\\'
        · subst h2
          have he : escapeChar '\\' = ['\\', '\\'] := by decide
          rw [he]
          simp only [List.cons_append, List.nil_append]
          simp [parseStringBody, unescape, ih f rest hf2]
        · by_cases h3 : c = '\n'
          · subst h3
            have he : escapeChar '\n' = ['\\', 'n'] := by decide
            rw [he]
            simp only [List.cons_append, List.nil_append]
            simp [parseStringBody, unescape, ih f rest hf2]
          · by_cases h4 : c = '\r'
            · subst h4
              have he : escapeChar '\r' = ['\\', 'r'] := by decide
              rw [he]
              simp only [List.cons_append, List.nil_append]
              simp [parseStringBody, unescape, ih f rest hf2]
            · by_cases h5 : c = '\t'
              · subst h5
                have he : escapeChar '\t' = ['\\', 't'] := by decide
                rw [he]
                simp only [List.cons_append, List.nil_append]
                simp [parseStringBody, unescape, ih f rest hf2]
              · by_cases h6 : c.toNat = 8
                · have he : escapeChar c = ['\\', 'b'] := by
                    simp [escapeChar, h1, h2, h3, h4, h5, h6]
                  have hc : c = Char.ofNat 8 := by
                    rw [← h6, charOfNat_self]
                  rw [he]
                  simp only [List.cons_append, List.nil_append]
                  rw [hc]
                  simp [parseStringBody, unescape, ih f rest hf2]
                · by_cases h7 : c.toNat = 12
                  · have he : escapeChar c = ['\\', 'f'] := by
                      simp [escapeChar, h1, h2, h3, h4, h5, h6, h7]
                    have hc : c = Char.ofNat 12 := by
                      rw [← h7, charOfNat_self]
                    rw [he]
                    simp only [List.cons_append, List.nil_append]
                    rw [hc]
                    simp [parseStringBody, unescape, ih f rest hf2]
                  · by_cases h8 : c.toNat < 32
                    · have he : escapeChar c = ['\\', 'u', '0', '0',
                          jsonHexDigit (c.toNat / 16), jsonHexDigit (c.toNat % 16)] := by
                        simp [escapeChar, h1, h2, h3, h4, h5, h6, h7, h8]
                      rw [he]
                      simp only [List.cons_append, List.nil_append]
                      have hd1 : hexVal (jsonHexDigit (c.toNat / 16)) = some (c.toNat / 16) :=
                        hexVal_hexDigit _ (by omega)
                      have hd2 : hexVal (jsonHexDigit (c.toNat % 16)) = some (c.toNat % 16) :=
                        hexVal_hexDigit _ (by omega)
                      have hd0 : hexVal '0' = some 0 := by decide
                      simp [parseStringBody, unescape, hd0, hd1, hd2, ih f rest hf2,
                            Nat.div_add_mod', charOfNat_self]
                    · have he : escapeChar c = [c] := by
                        simp [escapeChar, h1, h2, h3, h4, h5, h6, h7, h8]
                      rw [he]
                      simp only [List.cons_append, List.nil_append]
                      simp only [parseStringBody]
                      rw [if_neg h1, if_neg h2]
                      simp [ih f rest hf2]

/-! ### Round-trip: numbers -/

theorem isDigit_iff (c : Char) : c.isDigit = true ↔ 48 ≤ c.toNat ∧ c.toNat ≤ 57 := by
  simp [Char.isDigit, Char.le_def, UInt32.le_def, BitVec.le_def, Char.toNat, UInt32.toNat]

theorem natToCharsAux_eq (n : Nat) : ∀ (fuel : Nat) (acc : List Char), n < fuel →
    natToCharsAux fuel n acc = natToChars n ++ acc := by
  induction n using Nat.strong_induction_on with
  | _ n ih =>
    intro fuel acc hf
    cases fuel with
    | zero => omega
    | succ f =>
      by_cases h10 : n < 10
      · simp [natToCharsAux, natToChars, h10]
      · have hdiv : n / 10 < n := Nat.div_lt_self (by omega) (by omega)
        have lhs : natToCharsAux (f + 1) n acc
            = natToChars (n / 10) ++ (Char.ofNat (48 + n % 10) :: acc) := by
          simp only [natToCharsAux, if_neg h10]
          exact ih (n / 10) hdiv f _ (by omega)
        have rhs : natToChars n
            = natToChars (n / 10) ++ [Char.ofNat (48 + n % 10)] := by
          show natToCharsAux (n + 1) n [] = _
          simp only [natToCharsAux, if_neg h10]
          exact ih (n / 10) hdiv n _ (by omega)
        rw [lhs, rhs, List.append_assoc]
        rfl

theorem natToChars_eq (n : Nat) :
    natToChars n = if n < 10 then [Char.ofNat (48 + n)]
      else natToChars (n / 10) ++ [Char.ofNat (48 + n % 10)] := by
  by_cases h10 : n < 10
  · simp [natToChars, natToCharsAux, h10]
  · have hdiv : n / 10 < n := Nat.div_lt_self (by omega) (by omega)
    rw [if_neg h10]
    show natToCharsAux (n + 1) n [] = _
    simp only [natToCharsAux, if_neg h10]
    exact natToCharsAux_eq (n / 10) n _ (by omega)

theorem digitChar_isDigit (d : Nat) (h : d < 10) :
    (Char.ofNat (48 + d)).isDigit = true := by
  rw [isDigit_iff, charOfNat_toNat _ (Or.inl (by omega))]
  omega

theorem natToChars_all_digits (n : Nat) :
    ∀ c ∈ natToChars n, c.isDigit = true := by
  induction n using Nat.strong_induction_on with
  | _ n ih =>
    intro c hc
    rw [natToChars_eq] at hc
    by_cases h10 : n < 10
    · rw [if_pos h10] at hc
      simp at hc
      rw [hc]
      exact digitChar_isDigit n h10
    · rw [if_neg h10] at hc
      rcases List.mem_append.mp hc with h | h
      · exact ih (n / 10) (Nat.div_lt_self (by omega) (by omega)) c h
      · simp at h
        rw [h]
        exact digitChar_isDigit (n % 10) (by omega)

theorem natToChars_ne_nil (n : Nat) : natToChars n ≠ [] := by
  rw [natToChars_eq]
  by_cases h10 : n < 10 <;> simp [h10]

def digitsVal (ds : List Char) : Nat :=
  ds.foldl (fun a c => a * 10 + (c.toNat - 48)) 0

theorem foldl_digits_acc (ds : List Char) :
    ∀ a : Nat, ds.foldl (fun a c => a * 10 + (c.toNat - 48)) a
      = a * 10 ^ ds.length + digitsVal ds := by
  induction ds with
  | nil => intro a; simp [digitsVal]
  | cons c tl ih =>
    intro a
    show tl.foldl _ (a * 10 + (c.toNat - 48)) = _
    rw [ih (a * 10 + (c.toNat - 48))]
    have : digitsVal (c :: tl) = (c.toNat - 48) * 10 ^ tl.length + digitsVal tl := by
      show tl.foldl _ (0 * 10 + (c.toNat - 48)) = _
      rw [ih (0 * 10 + (c.toNat - 48))]
      ring_nf
    rw [this]
    simp [List.length_cons]
    ring

theorem digitsVal_natToChars (n : Nat) : digitsVal (natToChars n) = n := by
  induction n using Nat.strong_induction_on with
  | _ n ih =>
    rw [natToChars_eq]
    by_cases h10 : n < 10
    · rw [if_pos h10]
      show [Char.ofNat (48 + n)].foldl _ 0 = n
      simp [charOfNat_toNat (48 + n) (Or.inl (by omega))]
    · rw [if_neg h10]
      unfold digitsVal
      rw [List.foldl_append]
      have hdv : (natToChars (n / 10)).foldl (fun a c => a * 10 + (c.toNat - 48)) 0
          = n / 10 := ih (n / 10) (Nat.div_lt_self (by omega) (by omega))
      rw [hdv]
      simp [charOfNat_toNat (48 + n % 10) (Or.inl (by omega))]
      omega

def noDigitHead : List Char → Bool
  | [] => true
  | c :: _ => !c.isDigit

theorem parseDigitsRun_none (cs : List Char) (h : noDigitHead cs = true) :
    parseDigitsRun cs = none := by
  cases cs with
  | nil => rfl
  | cons c r =>
    simp [noDigitHead] at h
    simp [parseDigitsRun, h]

theorem parseDigitsRun_cons (c : Char) (X : List Char) (hc : c.isDigit = true) :
    parseDigitsRun (c :: X)
      = match parseDigitsRun X with
        | some (v, len, rest) => some ((c.toNat - 48) * 10 ^ len + v, len + 1, rest)
        | none => some (c.toNat - 48, 1, X) := by
  simp [parseDigitsRun, hc]

theorem parseDigitsRun_digits (ds : List Char) :
    ∀ rest, ds ≠ [] → (∀ c ∈ ds, c.isDigit = true) → noDigitHead rest = true →
    parseDigitsRun (ds ++ rest) = some (digitsVal ds, ds.length, rest) := by
  induction ds with
  | nil => intro rest h; exact absurd rfl h
  | cons c tl ih =>
    intro rest _ hd hr
    have hcd : c.isDigit = true := hd c (by simp)
    cases tl with
    | nil =>
      simp only [List.cons_append, List.nil_append]
      rw [parseDigitsRun_cons c rest hcd, parseDigitsRun_none rest hr]
      simp [digitsVal]
    | cons d tl2 =>
      have hin := ih rest (by simp) (fun x hx => hd x (by simp [hx])) hr
      simp only [List.cons_append] at hin ⊢
      rw [parseDigitsRun_cons c _ hcd, hin]
      have hv : digitsVal (c :: d :: tl2)
          = (c.toNat - 48) * 10 ^ (d :: tl2).length + digitsVal (d :: tl2) := by
        show (d :: tl2).foldl _ (0 * 10 + (c.toNat - 48)) = _
        rw [foldl_digits_acc]
        ring_nf
      rw [hv]
      simp [List.length_cons]

theorem pow10Exp_one : pow10Exp 1 = some 0 := by decide

theorem string_data_append (s t : String) : (s ++ t).toList = s.toList ++ t.toList := by
  cases s
  cases t
  rfl

theorem jsonNumChars_int (q : ℚ) (hq : q.den = 1) :
    jsonNumChars (num q)
      = (if q.num < 0 then ['-'] else []) ++ natToChars q.num.natAbs := by
  unfold jsonNumChars numToString
  simp only []
  rw [hq, pow10Exp_one]
  simp only [pow_zero, Nat.div_one, Nat.mul_one, if_pos rfl, if_true]
  by_cases hn : q.num < 0
  · simp only [hn, if_true]
    rw [string_data_append]
    rfl
  · simp only [hn, if_false]
    rw [string_data_append]
    rfl

/-- The characters that may legitimately follow a serialized JSON value
inside a canonical document. -/
def jsonBoundary : List Char → Bool
  | [] => true
  | c :: _ => c = ',' || c = ']' || c = '\x7d'

theorem jsonBoundary_noDigit (rest : List Char) (h : jsonBoundary rest = true) :
    noDigitHead rest = true := by
  cases rest with
  | nil => rfl
  | cons c r =>
    simp [jsonBoundary] at h
    rcases h with (h | h) | h <;> (subst h; rfl)

theorem parseNumber_roundTrip (q : ℚ) (rest : List Char) (hq : q.den = 1)
    (hb : jsonBoundary rest = true) :
    parseNumber (jsonNumChars (num q) ++ rest) = some (vNum (num q), rest) := by
  have hnum : (q.num : ℚ) = q := by
    have := Rat.num_div_den q
    rw [hq] at this
    simpa using this
  have hdr : parseDigitsRun (natToChars q.num.natAbs ++ rest)
      = some (q.num.natAbs, (natToChars q.num.natAbs).length, rest) := by
    rw [parseDigitsRun_digits _ rest (natToChars_ne_nil _)
        (natToChars_all_digits _) (jsonBoundary_noDigit rest hb)]
    rw [digitsVal_natToChars]
  have haux : parseNumAux (natToChars q.num.natAbs ++ rest)
      = some ((q.num.natAbs : ℚ), rest) := by
    unfold parseNumAux
    rw [hdr]
    cases rest with
    | nil => rfl
    | cons c r2 =>
      simp [jsonBoundary] at hb
      have hc : ¬ c = '.' := by
        rcases hb with (h | h) | h <;> (subst h; decide)
      simp [hc]
  rw [jsonNumChars_int q hq]
  by_cases hn : q.num < 0
  · have habs : (q.num.natAbs : ℚ) = -(q.num : ℚ) := by
      have h1 : (q.num.natAbs : ℤ) = -q.num := Int.ofNat_natAbs_of_nonpos (le_of_lt hn)
      have h2 : ((q.num.natAbs : ℤ) : ℚ) = ((-q.num : ℤ) : ℚ) := by rw [h1]
      rw [Int.cast_natCast, Int.cast_neg] at h2
      exact h2
    simp only [hn, if_true, List.cons_append, List.nil_append]
    show parseNumber ('-' :: (natToChars q.num.natAbs ++ rest)) = _
    simp only [parseNumber, if_pos rfl, haux]
    simp [Option.map, habs, hnum]
  · have habs : (q.num.natAbs : ℚ) = (q.num : ℚ) := by
      have h1 : (q.num.natAbs : ℤ) = q.num := Int.natAbs_of_nonneg (not_lt.mp hn)
      have h2 : ((q.num.natAbs : ℤ) : ℚ) = ((q.num : ℤ) : ℚ) := by rw [h1]
      rw [Int.cast_natCast] at h2
      exact h2
    obtain ⟨d, ds, hds⟩ : ∃ d ds, natToChars q.num.natAbs = d :: ds := by
      cases h : natToChars q.num.natAbs with
      | nil => exact absurd h (natToChars_ne_nil _)
      | cons d ds => exact ⟨d, ds, rfl⟩
    have hdd : d.isDigit = true := natToChars_all_digits _ d (by rw [hds]; simp)
    have hdne : ¬ d = '-' := by
      intro h
      rw [h] at hdd
      simp [Char.isDigit] at hdd
    have hback : d :: (ds ++ rest) = natToChars q.num.natAbs ++ rest := by
      rw [hds, List.cons_append]
    simp only [hn, if_false, List.nil_append]
    rw [hds, List.cons_append]
    simp only [parseNumber, if_neg hdne, hback, haux]
    simp [Option.map, habs, hnum]
/-! ### Round-trip: values -/

mutual

/-- Fuel needed by `parseValue` on a canonical document. -/
def costV : JSVal → Nat
  | vUndef => 1
  | vNull => 1
  | vBool _ => 1
  | vNum _ => 1
  | vStr _ => 1
  | vArr xs => 1 + costE xs
  | vObj fs => 1 + costM fs

def costE : List JSVal → Nat
  | [] => 0
  | x :: xs => 1 + max (costV x) (costE xs)

def costM : List (String × JSVal) → Nat
  | [] => 0
  | (_, v) :: fs => 1 + max (costV v) (costM fs)

end

mutual

/-- The values whose serialization the model covers exactly: no
`undefined`, and integral numbers in the double-safe range (`grade` and
`createdAt` are the only numeric fields of a ProblemRecord, both
integers). -/
def serializableV : JSVal → Bool
  | vUndef => false
  | vNull => true
  | vBool _ => true
  | vNum nan => false
  | vNum (num q) => decide (q.den = 1 ∧ q.num.natAbs < 2 ^ 53)
  | vStr _ => true
  | vArr xs => serializableL xs
  | vObj fs => serializableF fs

def serializableL : List JSVal → Bool
  | [] => true
  | x :: xs => serializableV x && serializableL xs

def serializableF : List (String × JSVal) → Bool
  | [] => true
  | (_, v) :: fs => serializableV v && serializableF fs

end

theorem serializable_den (q : ℚ) (h : serializableV (vNum (num q)) = true) :
    q.den = 1 := by
  simp [serializableV] at h
  exact h.1

theorem startsNumber_num (q : ℚ) (rest : List Char) (hq : q.den = 1) :
    startsNumber (jsonNumChars (num q) ++ rest) = true := by
  rw [jsonNumChars_int q hq]
  by_cases hn : q.num < 0
  · simp [hn, startsNumber]
  · simp only [hn, if_false, List.nil_append]
    obtain ⟨d, ds, hds⟩ : ∃ d ds, natToChars q.num.natAbs = d :: ds := by
      cases h : natToChars q.num.natAbs with
      | nil => exact absurd h (natToChars_ne_nil _)
      | cons d ds => exact ⟨d, ds, rfl⟩
    rw [hds]
    have hdd : d.isDigit = true := natToChars_all_digits _ d (by rw [hds]; simp)
    simp [startsNumber, hdd]

theorem arrBody_decomp (x : JSVal) (xs : List JSVal) :
    ∃ t, arrBody (x :: xs) = stringifyV x ++ t ∧
      ((xs = [] ∧ t = [']']) ∨ ∃ y ys, xs = y :: ys ∧ t = ',' :: arrBody (y :: ys)) := by
  cases xs with
  | nil => exact ⟨[']'], rfl, Or.inl ⟨rfl, rfl⟩⟩
  | cons y ys => exact ⟨',' :: arrBody (y :: ys), rfl, Or.inr ⟨y, ys, rfl, rfl⟩⟩

theorem objBody_decomp (k : String) (v : JSVal) (fs : List (String × JSVal)) :
    ∃ t, objBody ((k, v) :: fs) = quoteStr k ++ ':' :: stringifyV v ++ t ∧
      ((fs = [] ∧ t = ['\x7d']) ∨ ∃ g gs, fs = g :: gs ∧ t = ',' :: objBody (g :: gs)) := by
  cases fs with
  | nil =>
    refine ⟨['\x7d'], ?_, Or.inl ⟨rfl, rfl⟩⟩
    show quoteStr k ++ ':' :: stringifyV v ++ ['\x7d'] = _
    simp
  | cons g gs =>
    refine ⟨',' :: objBody (g :: gs), ?_, Or.inr ⟨g, gs, rfl, rfl⟩⟩
    show quoteStr k ++ ':' :: stringifyV v ++ ',' :: objBody (g :: gs) = _
    simp

theorem stringify_head (v : JSVal) (h : serializableV v = true) :
    ∃ c cs, stringifyV v = c :: cs ∧ c ≠ ']' ∧ c ≠ '\x7d' := by
  cases v with
  | vUndef => simp [serializableV] at h
  | vNull => exact ⟨'n', _, rfl, by decide, by decide⟩
  | vBool b =>
    cases b
    · exact ⟨'f', _, rfl, by decide, by decide⟩
    · exact ⟨'t', _, rfl, by decide, by decide⟩
  | vNum n =>
    cases n with
    | nan => simp [serializableV] at h
    | num q =>
      have hq := serializable_den q h
      show ∃ c cs, jsonNumChars (num q) = c :: cs ∧ c ≠ ']' ∧ c ≠ '\x7d'
      rw [jsonNumChars_int q hq]
      by_cases hn : q.num < 0
      · exact ⟨'-', natToChars q.num.natAbs, by simp [hn], by decide, by decide⟩
      · obtain ⟨d, ds, hds⟩ : ∃ d ds, natToChars q.num.natAbs = d :: ds := by
          cases hh : natToChars q.num.natAbs with
          | nil => exact absurd hh (natToChars_ne_nil _)
          | cons d ds => exact ⟨d, ds, rfl⟩
        have hdd : d.isDigit = true := natToChars_all_digits _ d (by rw [hds]; simp)
        have hdn := (isDigit_iff d).mp hdd
        refine ⟨d, ds, by simp [hn, hds], ?_, ?_⟩
        · intro he; rw [he] at hdn; exact absurd hdn (by decide)
        · intro he; rw [he] at hdn; exact absurd hdn (by decide)
  | vStr s => exact ⟨'"', _, rfl, by decide, by decide⟩
  | vArr xs => exact ⟨'[', _, rfl, by decide, by decide⟩
  | vObj fs => exact ⟨'\x7b', _, rfl, by decide, by decide⟩

theorem escapeChar_ne_nil (c : Char) : escapeChar c ≠ [] := by
  unfold escapeChar
  split_ifs <;> simp

theorem escapeList_length_ge (cs : List Char) : cs.length ≤ (escapeList cs).length := by
  induction cs with
  | nil => simp [escapeList]
  | cons c tl ih =>
    rw [escapeList_cons, List.length_append, List.length_cons]
    have h1 : 1 ≤ (escapeChar c).length := by
      cases h : escapeChar c with
      | nil => exact absurd h (escapeChar_ne_nil c)
      | cons a b => simp
    omega

theorem parseValue_number (f : Nat) (cs : List Char) (h : startsNumber cs = true) :
    parseValue (f + 1) cs = parseNumber cs := if_pos h

theorem and_true_split {a b : Bool} (h : (a && b) = true) : a = true ∧ b = true := by
  simp at h
  exact h

theorem parseMembers_quote (f : Nat) (R : List Char) :
    parseMembers (f + 1) ('"' :: R) =
      (parseStringBody (R.length + 1) R).bind (fun kr =>
        if kr.2.head? = some ':' then
          (parseValue f kr.2.tail).bind (fun pr =>
            if pr.2.head? = some ',' then
              (parseMembers f pr.2.tail).map
                (fun mr => ((String.mk kr.1, pr.1) :: mr.1, mr.2))
            else if pr.2.head? = some '\x7d' then
              some ([(String.mk kr.1, pr.1)], pr.2.tail)
            else none)
        else none) := rfl

theorem costV_pos (v : JSVal) : 1 ≤ costV v := by
  cases v <;> simp [costV]

/-- The parse of a canonical serialization, by simultaneous induction on
the parser's fuel: values, nonempty array bodies, and nonempty member
lists round-trip, leaving exactly the supplied boundary remainder. -/
theorem parse_stringify_main : ∀ (fuel : Nat),
    (∀ (v : JSVal) (rest : List Char), serializableV v = true →
      jsonBoundary rest = true → costV v ≤ fuel →
      parseValue fuel (stringifyV v ++ rest) = some (v, rest)) ∧
    (∀ (x : JSVal) (xs : List JSVal) (rest : List Char),
      serializableL (x :: xs) = true → jsonBoundary rest = true →
      costE (x :: xs) ≤ fuel →
      parseElems fuel (arrBody (x :: xs) ++ rest) = some (x :: xs, rest)) ∧
    (∀ (k : String) (vv : JSVal) (fs : List (String × JSVal)) (rest : List Char),
      serializableF ((k, vv) :: fs) = true → jsonBoundary rest = true →
      costM ((k, vv) :: fs) ≤ fuel →
      parseMembers fuel (objBody ((k, vv) :: fs) ++ rest) = some ((k, vv) :: fs, rest)) := by
  intro fuel
  induction fuel with
  | zero =>
    refine ⟨?_, ?_, ?_⟩
    · intro v rest _ _ hc
      have := costV_pos v
      omega
    · intro x xs rest _ _ hc
      have h3 : 1 + max (costV x) (costE xs) ≤ 0 := hc
      omega
    · intro k vv fs rest _ _ hc
      have h3 : 1 + max (costV vv) (costM fs) ≤ 0 := hc
      omega
  | succ f ih =>
    obtain ⟨ihV, ihE, ihM⟩ := ih
    refine ⟨?_, ?_, ?_⟩
    · intro v rest hs hb hc
      cases v with
      | vUndef => exact absurd hs (by simp [serializableV])
      | vNull => rfl
      | vBool b => cases b <;> rfl
      | vNum n =>
        cases n with
        | nan => exact absurd hs (by simp [serializableV])
        | num q =>
          have hq : q.den = 1 := serializable_den q hs
          have hsn := startsNumber_num q rest hq
          show parseValue (f + 1) (jsonNumChars (num q) ++ rest) = some (vNum (num q), rest)
          rw [parseValue_number f _ hsn]
          exact parseNumber_roundTrip q rest hq hb
      | vStr s =>
        show (parseStringBody (((escapeList s.toList ++ ['"']) ++ rest).length + 1)
              ((escapeList s.toList ++ ['"']) ++ rest)).map
            (fun pr => (vStr (String.mk pr.1), pr.2)) = some (vStr s, rest)
        simp only [List.append_assoc, List.singleton_append]
        rw [parseStringBody_escape s.toList _ rest
          (by have := escapeList_length_ge s.toList
              simp only [List.length_append, List.length_cons, List.length_nil]
              omega)]
        simp [string_mk_toList]
      | vArr xs =>
        cases xs with
        | nil => rfl
        | cons x xs =>
          have hsL : serializableL (x :: xs) = true := hs
          have hcE : costE (x :: xs) ≤ f := by
            have h3 : 1 + costE (x :: xs) ≤ f + 1 := hc
            omega
          have hsx : serializableV x = true :=
            (and_true_split (hsL : (serializableV x && serializableL xs) = true)).1
          obtain ⟨c, cs0, hx_eq, hcne, _⟩ := stringify_head x hsx
          obtain ⟨t, ht, _⟩ := arrBody_decomp x xs
          have hhead : (arrBody (x :: xs) ++ rest).head? = some c := by
            rw [ht, hx_eq]; rfl
          have hkey : parseElems f (arrBody (x :: xs) ++ rest) = some (x :: xs, rest) :=
            ihE x xs rest hsL hb hcE
          show (if (arrBody (x :: xs) ++ rest).head? = some ']'
                then some (vArr [], (arrBody (x :: xs) ++ rest).tail)
                else (parseElems f (arrBody (x :: xs) ++ rest)).map
                  (fun pr => (vArr pr.1, pr.2)))
              = some (vArr (x :: xs), rest)
          rw [if_neg (by rw [hhead]; simp [hcne]), hkey]
          rfl
      | vObj fs0 =>
        cases fs0 with
        | nil => rfl
        | cons kv fs =>
          obtain ⟨k, vv⟩ := kv
          have hsF : serializableF ((k, vv) :: fs) = true := hs
          have hcM : costM ((k, vv) :: fs) ≤ f := by
            have h3 : 1 + costM ((k, vv) :: fs) ≤ f + 1 := hc
            omega
          obtain ⟨t, ht, _⟩ := objBody_decomp k vv fs
          have hhead : (objBody ((k, vv) :: fs) ++ rest).head? = some '"' := by
            rw [ht]; rfl
          have hkey : parseMembers f (objBody ((k, vv) :: fs) ++ rest)
              = some ((k, vv) :: fs, rest) := ihM k vv fs rest hsF hb hcM
          show (if (objBody ((k, vv) :: fs) ++ rest).head? = some '\x7d'
                then some (vObj [], (objBody ((k, vv) :: fs) ++ rest).tail)
                else (parseMembers f (objBody ((k, vv) :: fs) ++ rest)).map
                  (fun pr => (vObj pr.1, pr.2)))
              = some (vObj ((k, vv) :: fs), rest)
          rw [if_neg (by rw [hhead]; simp), hkey]
          rfl
    · intro x xs rest hs hb hc
      obtain ⟨t, ht, hts⟩ := arrBody_decomp x xs
      have hsx : serializableV x = true :=
        (and_true_split (hs : (serializableV x && serializableL xs) = true)).1
      have hsxs : serializableL xs = true :=
        (and_true_split (hs : (serializableV x && serializableL xs) = true)).2
      have hbt : jsonBoundary (t ++ rest) = true := by
        rcases hts with ⟨_, h⟩ | ⟨y, ys, _, h⟩ <;> subst h <;> rfl
      have hcx : costV x ≤ f := by
        have h3 : 1 + max (costV x) (costE xs) ≤ f + 1 := hc
        have h4 := Nat.le_max_left (costV x) (costE xs)
        omega
      have hkey : parseValue f (stringifyV x ++ (t ++ rest)) = some (x, t ++ rest) :=
        ihV x (t ++ rest) hsx hbt hcx
      show (parseValue f (arrBody (x :: xs) ++ rest)).bind
          (fun pr => if pr.2.head? = some ',' then
              (parseElems f pr.2.tail).map (fun qr => (pr.1 :: qr.1, qr.2))
            else if pr.2.head? = some ']' then some ([pr.1], pr.2.tail)
            else none)
        = some (x :: xs, rest)
      rw [ht, List.append_assoc, hkey]
      rcases hts with ⟨hxs, h⟩ | ⟨y, ys, hxs, h⟩
      · subst hxs; subst h
        rfl
      · subst hxs; subst h
        have hc2 : costE (y :: ys) ≤ f := by
          have h3 : 1 + max (costV x) (costE (y :: ys)) ≤ f + 1 := hc
          have h4 := Nat.le_max_right (costV x) (costE (y :: ys))
          omega
        have hkey2 : parseElems f (arrBody (y :: ys) ++ rest) = some (y :: ys, rest) :=
          ihE y ys rest hsxs hb hc2
        show (parseElems f (arrBody (y :: ys) ++ rest)).map
            (fun qr => (x :: qr.1, qr.2)) = some (x :: y :: ys, rest)
        rw [hkey2]
        rfl
    · intro k vv fs rest hs hb hc
      obtain ⟨t, ht, hts⟩ := objBody_decomp k vv fs
      have hsv : serializableV vv = true :=
        (and_true_split (hs : (serializableV vv && serializableF fs) = true)).1
      have hsfs : serializableF fs = true :=
        (and_true_split (hs : (serializableV vv && serializableF fs) = true)).2
      have hbt : jsonBoundary (t ++ rest) = true := by
        rcases hts with ⟨_, h⟩ | ⟨g, gs, _, h⟩ <;> subst h <;> rfl
      have hcv : costV vv ≤ f := by
        have h3 : 1 + max (costV vv) (costM fs) ≤ f + 1 := hc
        have h4 := Nat.le_max_left (costV vv) (costM fs)
        omega
      have hkey : parseValue f (stringifyV vv ++ (t ++ rest)) = some (vv, t ++ rest) :=
        ihV vv (t ++ rest) hsv hbt hcv
      show parseMembers (f + 1) (objBody ((k, vv) :: fs) ++ rest) = some ((k, vv) :: fs, rest)
      rw [ht]
      rw [show quoteStr k ++ ':' :: stringifyV vv ++ t
            = '"' :: (((escapeList k.toList ++ ['"']) ++ (':' :: stringifyV vv)) ++ t)
          from rfl]
      rw [List.cons_append, parseMembers_quote]
      simp only [List.append_assoc, List.singleton_append, List.cons_append,
        List.nil_append]
      rw [parseStringBody_escape k.toList _ (':' :: (stringifyV vv ++ (t ++ rest)))
        (by have := escapeList_length_ge k.toList
            simp only [List.length_append, List.length_cons, List.length_nil]
            omega)]
      show (parseValue f (stringifyV vv ++ (t ++ rest))).bind
          (fun pr => if pr.2.head? = some ',' then
              (parseMembers f pr.2.tail).map
                (fun mr => ((String.mk k.toList, pr.1) :: mr.1, mr.2))
            else if pr.2.head? = some '\x7d' then
              some ([(String.mk k.toList, pr.1)], pr.2.tail)
            else none)
        = some ((k, vv) :: fs, rest)
      rw [hkey]
      rcases hts with ⟨hfs, h⟩ | ⟨g, gs, hfs, h⟩
      · subst hfs; subst h
        rfl
      · subst hfs; subst h
        obtain ⟨gk, gv⟩ := g
        have hc2 : costM ((gk, gv) :: gs) ≤ f := by
          have h3 : 1 + max (costV vv) (costM ((gk, gv) :: gs)) ≤ f + 1 := hc
          have h4 := Nat.le_max_right (costV vv) (costM ((gk, gv) :: gs))
          omega
        have hkey2 : parseMembers f (objBody ((gk, gv) :: gs) ++ rest)
            = some ((gk, gv) :: gs, rest) := ihM gk gv gs rest hsfs hb hc2
        show (parseMembers f (objBody ((gk, gv) :: gs) ++ rest)).map
            (fun mr => ((String.mk k.toList, vv) :: mr.1, mr.2))
          = some ((k, vv) :: (gk, gv) :: gs, rest)
        rw [hkey2]
        rfl

theorem natToString_toList (n : Nat) : (natToString n).toList = natToChars n := rfl

theorem natToString_data (n : Nat) : (natToString n).data = natToChars n := rfl

theorem jsonNumChars_ne_nil (n : JSNum) : jsonNumChars n ≠ [] := by
  cases n with
  | nan => simp [jsonNumChars]
  | num q =>
    show (numToString (num q)).toList ≠ []
    cases hpe : pow10Exp q.den with
    | none =>
      simp [numToString, hpe, natToString_toList, natToString_data, natToChars_ne_nil]
    | some k =>
      by_cases hk : k = 0
      · subst hk
        simp [numToString, hpe, string_data_append, natToString_toList,
          natToString_data, List.append_eq_nil, natToChars_ne_nil]
      · simp [numToString, hpe, hk, string_data_append, natToString_toList,
          List.append_eq_nil, natToChars_ne_nil]

/-- The fuel needed by the parser is bounded by the length of the
serialization (the simultaneous statement for the three syntactic
classes, by induction on a size bound). -/
theorem cost_len_all : ∀ (N : Nat),
    (∀ v : JSVal, sizeOf v ≤ N → costV v ≤ (stringifyV v).length) ∧
    (∀ (x : JSVal) (xs : List JSVal), sizeOf x + sizeOf xs ≤ N →
      costE (x :: xs) ≤ (arrBody (x :: xs)).length) ∧
    (∀ (k : String) (vv : JSVal) (fs : List (String × JSVal)),
      sizeOf vv + sizeOf fs ≤ N →
      costM ((k, vv) :: fs) ≤ (objBody ((k, vv) :: fs)).length) := by
  intro N
  induction N with
  | zero =>
    refine ⟨?_, ?_, ?_⟩
    · intro v h
      cases v <;> simp at h
    · intro x xs h
      cases x <;> simp at h
    · intro k vv fs h
      cases vv <;> simp at h
  | succ N ih =>
    obtain ⟨ih1, ih2, ih3⟩ := ih
    refine ⟨?_, ?_, ?_⟩
    · intro v h
      cases v with
      | vUndef => simp [costV, stringifyV]
      | vNull => simp [costV, stringifyV]
      | vBool b => cases b <;> simp [costV, stringifyV]
      | vNum n =>
        have h1 : 1 ≤ (jsonNumChars n).length :=
          List.length_pos.mpr (jsonNumChars_ne_nil n)
        simp only [costV, stringifyV]
        omega
      | vStr s =>
        simp [costV, stringifyV, quoteStr]
      | vArr xs =>
        cases xs with
        | nil => simp [costV, costE, stringifyV, arrBody]
        | cons x xs =>
          have h2 : sizeOf x + sizeOf xs ≤ N := by
            simp at h
            omega
          have h3 := ih2 x xs h2
          show 1 + costE (x :: xs) ≤ ('[' :: arrBody (x :: xs)).length
          simp only [List.length_cons]
          omega
      | vObj fs0 =>
        cases fs0 with
        | nil => simp [costV, costM, stringifyV, objBody]
        | cons kv fs =>
          obtain ⟨k, vv⟩ := kv
          have h2 : sizeOf vv + sizeOf fs ≤ N := by
            simp at h
            omega
          have h3 := ih3 k vv fs h2
          show 1 + costM ((k, vv) :: fs) ≤ ('\x7b' :: objBody ((k, vv) :: fs)).length
          simp only [List.length_cons]
          omega
    · intro x xs h
      cases xs with
      | nil =>
        have h2 : sizeOf x ≤ N := by
          simp at h
          omega
        have h3 := ih1 x h2
        show 1 + max (costV x) (costE []) ≤ (stringifyV x ++ [']']).length
        simp only [List.length_append, List.length_cons, List.length_nil, costE,
          Nat.max_zero]
        omega
      | cons y ys =>
        have h2x : sizeOf x ≤ N := by
          simp at h
          omega
        have h2e : sizeOf y + sizeOf ys ≤ N := by
          simp at h
          omega
        have hx := ih1 x h2x
        have he := ih2 y ys h2e
        have hm : max (costV x) (costE (y :: ys)) ≤
            (stringifyV x).length + (arrBody (y :: ys)).length :=
          max_le (hx.trans (Nat.le_add_right _ _)) (he.trans (Nat.le_add_left _ _))
        show 1 + max (costV x) (costE (y :: ys)) ≤
          (stringifyV x ++ ',' :: arrBody (y :: ys)).length
        simp only [List.length_append, List.length_cons]
        omega
    · intro k vv fs h
      cases fs with
      | nil =>
        have h2 : sizeOf vv ≤ N := by
          simp at h
          omega
        have h3 := ih1 vv h2
        show 1 + max (costV vv) (costM []) ≤
          (quoteStr k ++ ':' :: stringifyV vv ++ ['\x7d']).length
        simp only [List.length_append, List.length_cons, List.length_nil, costM,
          Nat.max_zero]
        omega
      | cons g gs =>
        obtain ⟨gk, gv⟩ := g
        have h2v : sizeOf vv ≤ N := by
          simp at h
          omega
        have h2m : sizeOf gv + sizeOf gs ≤ N := by
          simp at h
          omega
        have hv := ih1 vv h2v
        have hgm := ih3 gk gv gs h2m
        have hm : max (costV vv) (costM ((gk, gv) :: gs)) ≤
            (stringifyV vv).length + (objBody ((gk, gv) :: gs)).length :=
          max_le (hv.trans (Nat.le_add_right _ _)) (hgm.trans (Nat.le_add_left _ _))
        show 1 + max (costV vv) (costM ((gk, gv) :: gs)) ≤
          (quoteStr k ++ ':' :: stringifyV vv ++ ',' :: objBody ((gk, gv) :: gs)).length
        simp only [List.length_append, List.length_cons]
        omega

/-- Full round-trip: `JSON.parse(JSON.stringify(v))` recovers any
serializable value exactly. -/
theorem parse_stringify (v : JSVal) (h : serializableV v = true) :
    jsonParseList (stringifyV v) = some v := by
  have hc : costV v ≤ (stringifyV v).length + 1 := by
    have := (cost_len_all (sizeOf v)).1 v le_rfl
    omega
  have hmain := (parse_stringify_main ((stringifyV v).length + 1)).1 v [] h rfl hc
  rw [List.append_nil] at hmain
  unfold jsonParseList
  rw [hmain]

/-! ### Extractor: trim and index lemmas -/

theorem trimLeft_append (P Y : List Char)
    (hY : ∃ a R, Y = a :: R ∧ isWS a = false) :
    List.dropWhile isWS (P ++ Y) = List.dropWhile isWS P ++ Y := by
  induction P with
  | nil =>
    obtain ⟨a, R, h1, h2⟩ := hY
    subst h1
    simp [List.dropWhile_cons, h2]
  | cons p P ih =>
    simp only [List.cons_append, List.dropWhile_cons]
    by_cases hp : isWS p = true
    · simp [hp, ih]
    · simp [hp]

theorem jsTrim_wrap (P Y S : List Char)
    (h1 : ∃ a R, Y = a :: R ∧ isWS a = false)
    (h2 : ∃ R z, Y = R ++ [z] ∧ isWS z = false) :
    jsTrimList ((P ++ Y) ++ S)
      = (List.dropWhile isWS P ++ Y) ++ (S.reverse.dropWhile isWS).reverse := by
  unfold jsTrimList trimLeftList
  have s1 : List.dropWhile isWS ((P ++ Y) ++ S)
      = List.dropWhile isWS P ++ (Y ++ S) := by
    rw [List.append_assoc]
    apply trimLeft_append
    obtain ⟨a, R, hy, ha⟩ := h1
    exact ⟨a, R ++ S, by rw [hy]; simp, ha⟩
  rw [s1]
  have s2 : (List.dropWhile isWS P ++ (Y ++ S)).reverse
      = S.reverse ++ (Y.reverse ++ (List.dropWhile isWS P).reverse) := by
    simp [List.reverse_append]
  rw [s2]
  have s3 : List.dropWhile isWS
        (S.reverse ++ (Y.reverse ++ (List.dropWhile isWS P).reverse))
      = List.dropWhile isWS S.reverse ++ (Y.reverse ++ (List.dropWhile isWS P).reverse) := by
    apply trimLeft_append
    obtain ⟨R, z, hy, hz⟩ := h2
    exact ⟨z, R.reverse ++ (List.dropWhile isWS P).reverse, by rw [hy]; simp, hz⟩
  rw [s3]
  simp [List.reverse_append]

theorem jsTrim_delim (M : List Char) (a z : Char)
    (ha : isWS a = false) (hz : isWS z = false) :
    jsTrimList (a :: (M ++ [z])) = a :: (M ++ [z]) := by
  have := jsTrim_wrap [] (a :: (M ++ [z])) []
    ⟨a, M ++ [z], rfl, ha⟩ ⟨a :: M, z, by simp, hz⟩
  simpa using this

theorem idxOfChar_cons_self (c : Char) (R : List Char) :
    idxOfChar c (c :: R) = some 0 := by
  simp [idxOfChar]

theorem idxOfChar_append_not_mem (c : Char) (A B : List Char) (h : c ∉ A) :
    idxOfChar c (A ++ B) = (idxOfChar c B).map (· + A.length) := by
  induction A with
  | nil =>
    simp only [List.nil_append, List.length_nil]
    cases idxOfChar c B <;> simp
  | cons a A ih =>
    have hne : a ≠ c := fun he => h (by simp [he])
    have hA : c ∉ A := fun hm => h (by simp [hm])
    show (if a = c then some 0 else (idxOfChar c (A ++ B)).map (· + 1))
        = (idxOfChar c B).map (· + (a :: A).length)
    rw [if_neg hne, ih hA]
    cases idxOfChar c B with
    | none => rfl
    | some j =>
      simp only [Option.map_some', List.length_cons]
      congr 1

theorem lastIdxOfChar_not_mem (c : Char) (B : List Char) (h : c ∉ B) :
    lastIdxOfChar c B = none := by
  induction B with
  | nil => rfl
  | cons b B ih =>
    have hne : b ≠ c := fun he => h (by simp [he])
    have hB : c ∉ B := fun hm => h (by simp [hm])
    simp [lastIdxOfChar, ih hB, if_neg hne]

theorem lastIdxOfChar_append_right (c : Char) (A B : List Char) (h : c ∉ B) :
    lastIdxOfChar c (A ++ B) = lastIdxOfChar c A := by
  induction A with
  | nil =>
    simp [lastIdxOfChar_not_mem c B h]
    rfl
  | cons a A ih =>
    show (match lastIdxOfChar c (A ++ B) with
          | some j => some (j + 1)
          | none => if a = c then some 0 else none)
        = lastIdxOfChar c (a :: A)
    rw [ih]
    rfl

theorem lastIdxOfChar_append_self (c : Char) (Y : List Char) :
    lastIdxOfChar c (Y ++ [c]) = some Y.length := by
  induction Y with
  | nil => simp [lastIdxOfChar]
  | cons y Y ih =>
    show (match lastIdxOfChar c (Y ++ [c]) with
          | some j => some (j + 1)
          | none => if y = c then some 0 else none)
        = some (y :: Y).length
    rw [ih]
    simp

theorem lastIdxOfChar_lt_length (c : Char) (L : List Char) (j : Nat)
    (h : lastIdxOfChar c L = some j) : j < L.length := by
  induction L generalizing j with
  | nil => cases h
  | cons a L ih =>
    have h' : (match lastIdxOfChar c L with
        | some i => some (i + 1)
        | none => if a = c then some 0 else none) = some j := h
    cases hi : lastIdxOfChar c L with
    | some i =>
      rw [hi] at h'
      have hj : j = i + 1 := by
        have := h'
        simp at this
        omega
      have := ih i hi
      simp [hj, List.length_cons]
      omega
    | none =>
      rw [hi] at h'
      by_cases hac : a = c
      · rw [if_pos hac] at h'
        have hj : j = 0 := by
          have := h'
          simp at this
          omega
        simp [hj]
      · rw [if_neg hac] at h'
        cases h'

theorem fence_pfx_false (a : Char) (R : List Char) (h : a ≠ btick) :
    fence.isPrefixOf (a :: R) = false := by
  show ((btick == a) && [btick, btick].isPrefixOf R) = false
  have : (btick == a) = false := beq_eq_false_iff_ne.mpr (Ne.symm h)
  simp [this]

theorem fence_pfx_two_false (a : Char) (R : List Char) (h : a ≠ btick) :
    [btick, btick].isPrefixOf (a :: R) = false := by
  show ((btick == a) && [btick].isPrefixOf R) = false
  have : (btick == a) = false := beq_eq_false_iff_ne.mpr (Ne.symm h)
  simp [this]

theorem idxOfSub_fence_none (B : List Char) (h : btick ∉ B) :
    idxOfSub fence B = none := by
  induction B with
  | nil => rfl
  | cons b B ih =>
    have hb : b ≠ btick := fun he => h (by simp [he])
    have hB : btick ∉ B := fun hm => h (by simp [hm])
    simp [idxOfSub, fence_pfx_false b B hb, ih hB]

theorem idxOfSub_fence_append (A B : List Char) (h : btick ∉ A) :
    idxOfSub fence (A ++ B) = (idxOfSub fence B).map (· + A.length) := by
  induction A with
  | nil =>
    simp only [List.nil_append, List.length_nil]
    cases idxOfSub fence B <;> simp
  | cons a A ih =>
    have ha : a ≠ btick := fun he => h (by simp [he])
    have hA : btick ∉ A := fun hm => h (by simp [hm])
    show (if fence.isPrefixOf (a :: (A ++ B)) then some 0
          else (idxOfSub fence (A ++ B)).map (· + 1))
        = (idxOfSub fence B).map (· + (a :: A).length)
    rw [if_neg (by simp [fence_pfx_false a (A ++ B) ha]), ih hA]
    cases idxOfSub fence B with
    | none => rfl
    | some j =>
      simp only [Option.map_some', List.length_cons]
      congr 1

theorem idxOfSub_fence_self (B : List Char) : idxOfSub fence (fence ++ B) = some 0 := by
  show (if fence.isPrefixOf (btick :: (btick :: btick :: B)) then some 0
        else (idxOfSub fence (btick :: btick :: B)).map (· + 1)) = some 0
  rw [if_pos]
  show ((btick == btick) && ((btick == btick) && ((btick == btick) &&
      List.isPrefixOf [] B))) = true
  simp [List.isPrefixOf]

theorem lastIdxOfSub_fence_none (B : List Char) (h : btick ∉ B) :
    lastIdxOfSub fence B = none := by
  induction B with
  | nil => rfl
  | cons b B ih =>
    have hb : b ≠ btick := fun he => h (by simp [he])
    have hB : btick ∉ B := fun hm => h (by simp [hm])
    show (match lastIdxOfSub fence B with
          | some j => some (j + 1)
          | none => if fence.isPrefixOf (b :: B) then some 0 else none) = none
    rw [ih hB, fence_pfx_false b B hb]
    rfl

theorem fence_prefix_one (B : List Char) (h : btick ∉ B) :
    fence.isPrefixOf (btick :: B) = false := by
  cases B with
  | nil => rfl
  | cons b B' =>
    have hb : b ≠ btick := fun he => h (by simp [he])
    show ((btick == btick) && [btick, btick].isPrefixOf (b :: B')) = false
    simp [fence_pfx_two_false b B' hb]

theorem fence_prefix_two (B : List Char) (h : btick ∉ B) :
    fence.isPrefixOf (btick :: btick :: B) = false := by
  cases B with
  | nil => rfl
  | cons b B' =>
    have hb : b ≠ btick := fun he => h (by simp [he])
    show ((btick == btick) && ((btick == btick) && [btick].isPrefixOf (b :: B'))) = false
    have : (btick == b) = false := beq_eq_false_iff_ne.mpr (Ne.symm hb)
    show ((btick == btick) && ((btick == btick) && ((btick == b) &&
        List.isPrefixOf [] B'))) = false
    simp [this]

theorem lastIdxOfSub_fence_append (A B : List Char) (h : btick ∉ B) :
    lastIdxOfSub fence (A ++ (fence ++ B)) = some A.length := by
  induction A with
  | nil =>
    have h1 : lastIdxOfSub fence B = none := lastIdxOfSub_fence_none B h
    have h2 : lastIdxOfSub fence (btick :: B) = none := by
      show (match lastIdxOfSub fence B with
            | some j => some (j + 1)
            | none => if fence.isPrefixOf (btick :: B) then some 0 else none) = none
      rw [h1, fence_prefix_one B h]
      rfl
    have h3 : lastIdxOfSub fence (btick :: btick :: B) = none := by
      show (match lastIdxOfSub fence (btick :: B) with
            | some j => some (j + 1)
            | none => if fence.isPrefixOf (btick :: btick :: B) then some 0 else none) = none
      rw [h2, fence_prefix_two B h]
      rfl
    show (match lastIdxOfSub fence (btick :: btick :: B) with
          | some j => some (j + 1)
          | none => if fence.isPrefixOf (btick :: btick :: btick :: B) then some 0
            else none) = some 0
    rw [h3]
    have h4 : fence.isPrefixOf (btick :: btick :: btick :: B) = true := by
      show ((btick == btick) && ((btick == btick) && ((btick == btick) &&
          List.isPrefixOf [] B))) = true
      simp [List.isPrefixOf]
    rw [h4]
    rfl
  | cons a A ih =>
    show (match lastIdxOfSub fence (A ++ (fence ++ B)) with
          | some j => some (j + 1)
          | none => if fence.isPrefixOf (a :: (A ++ (fence ++ B))) then some 0
            else none) = some (a :: A).length
    rw [ih]
    simp

theorem arrBody_ends (rs : List JSVal) : ∃ M, arrBody rs = M ++ [']'] := by
  induction rs with
  | nil => exact ⟨[], rfl⟩
  | cons x xs ih =>
    cases xs with
    | nil => exact ⟨stringifyV x, rfl⟩
    | cons y ys =>
      obtain ⟨M, hM⟩ := ih
      refine ⟨stringifyV x ++ ',' :: M, ?_⟩
      show stringifyV x ++ ',' :: arrBody (y :: ys) = _
      rw [hM]
      simp

/-- Surrounding prose that cannot confuse the extractor: free of square
brackets, curly braces and backticks. -/
def goodProse (cs : List Char) : Bool :=
  cs.all (fun c => !(c = '[' || c = ']' || c = '\x7b' || c = '\x7d' || c = btick))

theorem goodProse_spec (P : List Char) (h : goodProse P = true) :
    '[' ∉ P ∧ ']' ∉ P ∧ '\x7b' ∉ P ∧ '\x7d' ∉ P ∧ btick ∉ P := by
  simp only [goodProse, List.all_eq_true, Bool.not_eq_eq_eq_not, Bool.not_true,
    Bool.or_eq_false_iff, decide_eq_false_iff_not] at h
  refine ⟨?_, ?_, ?_, ?_, ?_⟩ <;> intro hm
  · exact ((((h '[' hm).1).1).1).1 rfl
  · exact ((((h ']' hm).1).1).1).2 rfl
  · exact (((h '\x7b' hm).1).1).2 rfl
  · exact ((h '\x7d' hm).1).2 rfl
  · exact (h btick hm).2 rfl

/-- The bracket-slicing step recovers exactly a bracket-delimited segment
out of prose that contains no brackets or braces. -/
theorem bracketSlice_extract (P S M : List Char)
    (hP1 : '[' ∉ P) (hP2 : '\x7b' ∉ P)
    (hS1 : ']' ∉ S) (hS2 : '\x7d' ∉ S) :
    bracketSlice ((P ++ ('[' :: (M ++ [']']))) ++ S)
      = jsTrimList ('[' :: (M ++ [']'])) := by
  have hsq : idxOfChar '[' ((P ++ ('[' :: (M ++ [']']))) ++ S) = some P.length := by
    rw [List.append_assoc, idxOfChar_append_not_mem '[' P _ hP1]
    rw [show ('[' :: (M ++ [']'])) ++ S = '[' :: ((M ++ [']']) ++ S) from rfl]
    rw [idxOfChar_cons_self]
    simp
  have hsqL : lastIdxOfChar ']' ((P ++ ('[' :: (M ++ [']']))) ++ S)
      = some (P.length + (M.length + 1)) := by
    have hS1' : ']' ∉ S := hS1
    rw [lastIdxOfChar_append_right ']' _ S hS1']
    rw [show P ++ ('[' :: (M ++ [']'])) = (P ++ '[' :: M) ++ [']'] by simp]
    rw [lastIdxOfChar_append_self]
    simp
  -- the first curly index, if any, is strictly beyond P.length
  have hcu : idxOfChar '\x7b' ((P ++ ('[' :: (M ++ [']']))) ++ S) = none ∨
      ∃ j, idxOfChar '\x7b' ((P ++ ('[' :: (M ++ [']']))) ++ S) = some (j + 1 + P.length) := by
    rw [List.append_assoc, idxOfChar_append_not_mem '\x7b' P _ hP2]
    rw [show ('[' :: (M ++ [']'])) ++ S = '[' :: ((M ++ [']']) ++ S) from rfl]
    rw [show idxOfChar '\x7b' ('[' :: ((M ++ [']']) ++ S))
          = (idxOfChar '\x7b' ((M ++ [']']) ++ S)).map (· + 1) by
        simp [idxOfChar]]
    cases idxOfChar '\x7b' ((M ++ [']']) ++ S) with
    | none => exact Or.inl rfl
    | some j => exact Or.inr ⟨j, by simp⟩
  have hcuL : lastIdxOfChar '\x7d' ((P ++ ('[' :: (M ++ [']']))) ++ S) = none ∨
      ∃ j, lastIdxOfChar '\x7d' ((P ++ ('[' :: (M ++ [']']))) ++ S) = some j ∧
        j < P.length + (M.length + 1) := by
    have hnb : '\x7d' ∉ (']' :: S) := by
      intro hm
      rcases List.mem_cons.mp hm with h | h
      · exact absurd h.symm (by decide)
      · exact hS2 h
    rw [show (P ++ ('[' :: (M ++ [']']))) ++ S = (P ++ '[' :: M) ++ (']' :: S) by simp]
    rw [lastIdxOfChar_append_right '\x7d' _ _ hnb]
    cases hj : lastIdxOfChar '\x7d' (P ++ '[' :: M) with
    | none => exact Or.inl rfl
    | some j =>
      refine Or.inr ⟨j, rfl, ?_⟩
      have := lastIdxOfChar_lt_length '\x7d' _ j hj
      simp [List.length_append] at this
      omega
  unfold bracketSlice
  rw [hsq, hsqL]
  have hfirst : (match some P.length,
        idxOfChar '\x7b' ((P ++ ('[' :: (M ++ [']']))) ++ S) with
      | some a, some b => some (min a b)
      | some a, none => some a
      | none, some b => some b
      | none, none => none) = some P.length := by
    rcases hcu with h | ⟨j, h⟩
    · rw [h]
    · rw [h]
      have : min P.length (j + 1 + P.length) = P.length := by omega
      simp [this]
  have hlast : (match some (P.length + (M.length + 1)),
        lastIdxOfChar '\x7d' ((P ++ ('[' :: (M ++ [']']))) ++ S) with
      | some a, some b => some (max a b)
      | some a, none => some a
      | none, some b => some b
      | none, none => none) = some (P.length + (M.length + 1)) := by
    rcases hcuL with h | ⟨j, h, hlt⟩
    · rw [h]
    · rw [h]
      have : max (P.length + (M.length + 1)) j = P.length + (M.length + 1) := by omega
      simp [this]
  rw [hfirst, hlast]
  simp only []
  rw [if_pos (show P.length ≤ P.length + (M.length + 1) by omega)]
  have hdrop : ((P ++ ('[' :: (M ++ [']']))) ++ S).drop P.length
      = ('[' :: (M ++ [']'])) ++ S := by
    rw [List.append_assoc]
    exact List.drop_left P _
  rw [hdrop]
  have htake : (('[' :: (M ++ [']'])) ++ S).take (P.length + (M.length + 1) + 1 - P.length)
      = '[' :: (M ++ [']']) := by
    have hlen : P.length + (M.length + 1) + 1 - P.length
        = ('[' :: (M ++ [']'])).length := by
      simp
      omega
    rw [hlen]
    exact List.take_left _ _
  rw [htake]

/-- Without any fence delimiter in the text, the fence-handling step is
the identity. -/
theorem fenceSlice_id (T : List Char) (h : btick ∉ T) : fenceSlice T = T := by
  unfold fenceSlice
  rw [idxOfSub_fence_none T h]

/-- With a backtick-free payload between two fences and backtick-free
prose around them, the fence-handling step slices exactly to the fenced
region. -/
theorem fenceSlice_fenced (P TAGXN S : List Char) (hP : btick ∉ P) (hS : btick ∉ S) :
    fenceSlice (P ++ (fence ++ (TAGXN ++ (fence ++ S))))
      = jsTrimList (stripJsonTag (jsTrimList TAGXN)) := by
  have h1 : idxOfSub fence (P ++ (fence ++ (TAGXN ++ (fence ++ S)))) = some P.length := by
    rw [idxOfSub_fence_append P _ hP, idxOfSub_fence_self]
    simp
  have h2 : lastIdxOfSub fence (P ++ (fence ++ (TAGXN ++ (fence ++ S))))
      = some (P.length + (3 + TAGXN.length)) := by
    rw [show P ++ (fence ++ (TAGXN ++ (fence ++ S)))
          = (P ++ (fence ++ TAGXN)) ++ (fence ++ S) by simp]
    rw [lastIdxOfSub_fence_append _ S hS]
    simp [fence]
    omega
  unfold fenceSlice
  rw [h1, h2]
  simp only []
  rw [if_pos (show P.length < P.length + (3 + TAGXN.length) by omega)]
  have hdrop : (P ++ (fence ++ (TAGXN ++ (fence ++ S)))).drop (P.length + 3)
      = TAGXN ++ (fence ++ S) := by
    rw [show P ++ (fence ++ (TAGXN ++ (fence ++ S)))
          = (P ++ fence) ++ (TAGXN ++ (fence ++ S)) by simp]
    rw [show P.length + 3 = (P ++ fence).length by simp [fence]]
    exact List.drop_left _ _
  rw [hdrop]
  have htake : (TAGXN ++ (fence ++ S)).take (P.length + (3 + TAGXN.length) - (P.length + 3))
      = TAGXN := by
    rw [show P.length + (3 + TAGXN.length) - (P.length + 3) = TAGXN.length by omega]
    exact List.take_left _ _
  rw [htake]

theorem not_mem_trimLeft (c : Char) (P : List Char) (h : c ∉ P) :
    c ∉ List.dropWhile isWS P :=
  fun hm => h ((List.dropWhile_sublist (p := isWS) (l := P)).subset hm)

theorem not_mem_trimRight (c : Char) (S : List Char) (h : c ∉ S) :
    c ∉ (S.reverse.dropWhile isWS).reverse := by
  intro hm
  rw [List.mem_reverse] at hm
  have := (List.dropWhile_sublist (p := isWS) (l := S.reverse)).subset hm
  rw [List.mem_reverse] at this
  exact h this

/-- Plain-prose extraction: the serialized array, embedded between
bracket-free backtick-free prose, is recovered exactly. -/
theorem extract_plain (rs : List JSVal) (P S : List Char)
    (hser : serializableV (vArr rs) = true)
    (hx : btick ∉ stringifyV (vArr rs))
    (hP : goodProse P = true) (hS : goodProse S = true) :
    extractProblemsFromText (String.mk ((P ++ stringifyV (vArr rs)) ++ S)) = some rs := by
  obtain ⟨M, hM⟩ := arrBody_ends rs
  have hX : stringifyV (vArr rs) = '[' :: (M ++ [']']) := by
    show '[' :: arrBody rs = _
    rw [hM]
  obtain ⟨hP1, hP2, hP3, hP4, hP5⟩ := goodProse_spec P hP
  obtain ⟨hS1, hS2, hS3, hS4, hS5⟩ := goodProse_spec S hS
  have ht0 : jsTrimList ((P ++ stringifyV (vArr rs)) ++ S)
      = (List.dropWhile isWS P ++ stringifyV (vArr rs))
        ++ (S.reverse.dropWhile isWS).reverse := by
    apply jsTrim_wrap
    · exact ⟨'[', M ++ [']'], hX, rfl⟩
    · exact ⟨'[' :: M, ']', by rw [hX]; rfl, rfl⟩
  have hbt : btick ∉ (List.dropWhile isWS P ++ stringifyV (vArr rs))
      ++ (S.reverse.dropWhile isWS).reverse := by
    intro hm
    rcases List.mem_append.mp hm with hm | hm
    · rcases List.mem_append.mp hm with hm | hm
      · exact not_mem_trimLeft btick P hP5 hm
      · exact hx hm
    · exact not_mem_trimRight btick S hS5 hm
  have hfs := fenceSlice_id _ hbt
  have hbs := bracketSlice_extract (List.dropWhile isWS P)
    ((S.reverse.dropWhile isWS).reverse) M
    (not_mem_trimLeft _ P hP1) (not_mem_trimLeft _ P hP3)
    (not_mem_trimRight _ S hS2) (not_mem_trimRight _ S hS4)
  have htrX : jsTrimList ('[' :: (M ++ [']'])) = '[' :: (M ++ [']']) :=
    jsTrim_delim M '[' ']' rfl rfl
  have hparse : jsonParseList (stringifyV (vArr rs)) = some (vArr rs) :=
    parse_stringify _ hser
  unfold extractProblemsFromText
  simp only []
  rw [show (String.mk ((P ++ stringifyV (vArr rs)) ++ S)).toList
        = (P ++ stringifyV (vArr rs)) ++ S from rfl]
  rw [ht0, hfs, hX, hbs, htrX, ← hX, hparse]
  rfl

/-- Fenced extraction: the serialized array inside a ```json fenced block
surrounded by bracket-free backtick-free prose is recovered exactly. -/
theorem extract_fenced (rs : List JSVal) (P S : List Char)
    (hser : serializableV (vArr rs) = true)
    (hP : goodProse P = true) (hS : goodProse S = true) :
    extractProblemsFromText (String.mk ((P ++
        (fence ++ ("json\n".toList ++ (stringifyV (vArr rs) ++ ('\n' :: fence))))) ++ S))
      = some rs := by
  obtain ⟨M, hM⟩ := arrBody_ends rs
  have hX : stringifyV (vArr rs) = '[' :: (M ++ [']']) := by
    show '[' :: arrBody rs = _
    rw [hM]
  obtain ⟨hP1, hP2, hP3, hP4, hP5⟩ := goodProse_spec P hP
  obtain ⟨hS1, hS2, hS3, hS4, hS5⟩ := goodProse_spec S hS
  have ht0 : jsTrimList ((P ++
        (fence ++ ("json\n".toList ++ (stringifyV (vArr rs) ++ ('\n' :: fence))))) ++ S)
      = (List.dropWhile isWS P ++
          (fence ++ ("json\n".toList ++ (stringifyV (vArr rs) ++ ('\n' :: fence)))))
        ++ (S.reverse.dropWhile isWS).reverse := by
    apply jsTrim_wrap
    · exact ⟨btick, btick :: btick ::
        ("json\n".toList ++ (stringifyV (vArr rs) ++ ('\n' :: fence))), rfl, rfl⟩
    · refine ⟨fence ++ ("json\n".toList ++ (stringifyV (vArr rs) ++ ('\n' :: [btick, btick]))),
        btick, ?_, rfl⟩
      simp [fence]
  have hEq : (List.dropWhile isWS P ++
        (fence ++ ("json\n".toList ++ (stringifyV (vArr rs) ++ ('\n' :: fence)))))
        ++ (S.reverse.dropWhile isWS).reverse
      = List.dropWhile isWS P ++
        (fence ++ (("json\n".toList ++ (stringifyV (vArr rs) ++ ['\n'])) ++
          (fence ++ (S.reverse.dropWhile isWS).reverse))) := by
    simp
  have hfs := fenceSlice_fenced (List.dropWhile isWS P)
    ("json\n".toList ++ (stringifyV (vArr rs) ++ ['\n']))
    ((S.reverse.dropWhile isWS).reverse)
    (not_mem_trimLeft _ P hP5) (not_mem_trimRight _ S hS5)
  have htag : jsTrimList ("json\n".toList ++ (stringifyV (vArr rs) ++ ['\n']))
      = "json\n".toList ++ stringifyV (vArr rs) := by
    rw [show "json\n".toList ++ (stringifyV (vArr rs) ++ ['\n'])
          = ([] ++ ("json\n".toList ++ stringifyV (vArr rs))) ++ ['\n'] by simp]
    rw [jsTrim_wrap [] ("json\n".toList ++ stringifyV (vArr rs)) ['\n']
      ⟨'j', "son\n".toList ++ stringifyV (vArr rs), rfl, rfl⟩
      ⟨"json\n".toList ++ ('[' :: M), ']', by rw [hX]; simp, rfl⟩]
    simp [isWS]
  have hstrip : stripJsonTag ("json\n".toList ++ stringifyV (vArr rs))
      = stringifyV (vArr rs) := by
    rw [hX]
    rfl
  have htrX : jsTrimList ('[' :: (M ++ [']'])) = '[' :: (M ++ [']']) :=
    jsTrim_delim M '[' ']' rfl rfl
  have hbs := bracketSlice_extract [] [] M
    (by simp) (by simp) (by simp) (by simp)
  have hparse : jsonParseList (stringifyV (vArr rs)) = some (vArr rs) :=
    parse_stringify _ hser
  unfold extractProblemsFromText
  simp only []
  rw [show (String.mk ((P ++
        (fence ++ ("json\n".toList ++ (stringifyV (vArr rs) ++ ('\n' :: fence))))) ++ S)).toList
      = (P ++
        (fence ++ ("json\n".toList ++ (stringifyV (vArr rs) ++ ('\n' :: fence))))) ++ S from rfl]
  rw [ht0, hEq, hfs, htag, hstrip, hX, htrX]
  rw [show bracketSlice ('[' :: (M ++ [']']))
        = bracketSlice (([] ++ ('[' :: (M ++ [']']))) ++ []) by simp]
  rw [hbs, htrX, ← hX, hparse]
  rfl

/-- **C4** (corrected): Response-extractor round-trip. For every
serializable array of records whose serialization is backtick-free, and
every surrounding prose free of square brackets, curly braces and
backtick characters, extraction recovers the original array exactly —
both for the array embedded bare in the prose and for the array wrapped
in a ```json fenced block inside the prose. (The unrestricted original
claim is refuted by `extractProblems_counterexample`.) -/
theorem extractProblems_roundTrip (rs : List JSVal) (P S : List Char)
    (hser : serializableV (vArr rs) = true)
    (hx : btick ∉ stringifyV (vArr rs))
    (hP : goodProse P = true) (hS : goodProse S = true) :
    extractProblemsFromText (String.mk ((P ++ stringifyV (vArr rs)) ++ S)) = some rs ∧
    extractProblemsFromText (String.mk ((P ++
        (fence ++ ("json\n".toList ++ (stringifyV (vArr rs) ++ ('\n' :: fence))))) ++ S))
      = some rs :=
  ⟨extract_plain rs P S hser hx hP hS, extract_fenced rs P S hser hP hS⟩

/-- Witness for C4: a one-record array wrapped in concrete Spanish prose
is extracted back exactly. -/
theorem extractProblems_roundTrip_witness :
    (serializableV (vArr [vObj [("id", vStr "p1")]]) = true ∧
     btick ∉ stringifyV (vArr [vObj [("id", vStr "p1")]]) ∧
     goodProse "Claro: ".toList = true ∧
     goodProse " fin.".toList = true) ∧
    extractProblemsFromText (String.mk (("Claro: ".toList ++
        stringifyV (vArr [vObj [("id", vStr "p1")]])) ++ " fin.".toList))
      = some [vObj [("id", vStr "p1")]] :=
  ⟨⟨by decide, by decide, by decide, by decide⟩,
   (extractProblems_roundTrip [vObj [("id", vStr "p1")]]
      "Claro: ".toList " fin.".toList
      (by decide) (by decide) (by decide) (by decide)).1⟩

/-- Counterexample to the original C4: the empty array serializes to
`[]`, yet with the (fence-free, prefix-free) prose suffix `]` the
extractor slices to `[]]`, both parse attempts throw, and no array is
recovered. -/
theorem extractProblems_counterexample :
    stringifyV (vArr []) = "[]".toList ∧
    extractProblemsFromText (String.mk (stringifyV (vArr []) ++ "]".toList)) = none :=
  ⟨rfl, rfl⟩

end Banco
